import Mathlib

set_option linter.unusedVariables false

/-!
Shallow embedding of the core of the `syscalls` crate: the errno
translation layer (src/errno/mod.rs), the macro-generated syscall identity
type (src/arch/macros.rs), the bit-packed `SysnoSet` (src/set.rs) and the
`SysnoMap` container (src/map.rs), together with proofs of the claimed
properties.

Machine integers are modelled as `Nat` (unsigned words) and `Int` (for
`i32`), with explicit reductions modulo `2 ^ w` where the Rust code relies
on two's-complement behaviour.
-/

/-- Reduction of an integer into the `i32` range, i.e. two's-complement
wrapping at 32 bits. -/
def wrapI32 (x : Int) : Int := (x + 2 ^ 31) % 2 ^ 32 - 2 ^ 31

/-- Truncating cast from an unsigned machine word to `i32`
(Rust `value as i32`). -/
def usizeAsI32 (n : Nat) : Int := wrapI32 (n : Int)

/-- Errno is a newtype over an `i32` error code (src/errno/mod.rs,
`Errno(pub i32)` from the generated errno table). -/
structure Errno where
  code : Int
  deriving DecidableEq

/-- Construction `Errno::new(num)`. -/
def Errno.new (num : Int) : Errno := ⟨num⟩

/-- Accessor `Errno::into_raw`. -/
def Errno.into_raw (e : Errno) : Int := e.code

/-- Validity test `Errno::is_valid`; the source checks `self.0 < 4096` with
no lower bound. -/
def Errno.is_valid (e : Errno) : Bool := decide (e.code < 4096)

/-- Translation `Errno::from_ret` over a word size of `w` bits. The source
compares `value > -4096isize as usize`, and `-4096isize as usize` is the
two's-complement word `2 ^ w - 4096`. On error it stores `-(value as i32)`,
where both the cast and the negation are 32-bit operations. -/
def Errno.from_ret (w : Nat) (value : Nat) : Except Errno Nat :=
  if value > 2 ^ w - 4096 then
    Except.error (Errno.new (wrapI32 (-(usizeAsI32 value))))
  else
    Except.ok value

/-- Modelled from the spec: the per-architecture syscall table fed to the
`syscall_enum` construction in src/arch/macros.rs. The concrete generated
tables are produced by an offline generator and are not part of the core
sources; the spec describes each as a totally ordered, gap-aware list of
(id, name) pairs. `ids` holds the numeric ids in declaration order and
`names` the parallel variant names. -/
structure SyscallTable where
  ids : List Nat
  names : List String

/-- Modelled from the spec: well-formedness of a syscall table. The table is
nonempty, its ids are strictly increasing (a totally ordered, gap-aware
table whose first declared entry is `first()` and whose `LAST` entry is
`last()`), and each id carries a nonempty name (names are Rust identifiers
produced by `stringify!`). -/
def SyscallTable.WF (T : SyscallTable) : Prop :=
  T.ids ≠ [] ∧ List.Pairwise (· < ·) T.ids ∧
    T.names.length = T.ids.length ∧ ∀ n ∈ T.names, n ≠ ""

instance (T : SyscallTable) : Decidable T.WF := by
  unfold SyscallTable.WF
  infer_instance

/-- Validity of an id: `Sysno::new` in src/arch/macros.rs matches exactly
the ids listed in the table. A `Sysno` value is represented by its id. -/
def Sysno.isValid (T : SyscallTable) (id : Nat) : Bool := T.ids.contains id

/-- Constructor `Sysno::new(id)`: the generated match returns the variant
whose discriminant is `id` when listed, otherwise `None`. -/
def Sysno.new (T : SyscallTable) (id : Nat) : Option Nat :=
  if Sysno.isValid T id then some id else none

/-- Lookup `Sysno::name`: the generated match returns the stringified
variant identifier paired with the id. -/
def Sysno.name (T : SyscallTable) (id : Nat) : String :=
  T.names.getD (T.ids.indexOf id) ""

/-- Boundary constant `Sysno::first()`: the first declared variant. -/
def Sysno.first (T : SyscallTable) : Nat := T.ids.headD 0

/-- Boundary constant `Sysno::last()`: the `LAST` variant. -/
def Sysno.last (T : SyscallTable) : Nat := T.ids.getLastD 0

/-- Size `Sysno::count()`: the length of the `ALL` slice. -/
def Sysno.count (T : SyscallTable) : Nat := T.ids.length

/-- Size `Sysno::table_size()`: `(last - first) + 1`, holes included. -/
def Sysno.table_size (T : SyscallTable) : Nat :=
  Sysno.last T - Sysno.first T + 1

/-- Scan loop inside `Sysno::next`: starting from `nid`, the source loops
`while next_id < last().id()`, returning the first valid id and falling
through to `None`. The loop runs at most `last - nid` times, which is the
structural fuel used here; the `0` case is exactly the loop guard failing. -/
def Sysno.nextLoopAux (T : SyscallTable) : Nat → Nat → Option Nat
  | 0, _ => none
  | Nat.succ k, nid =>
    if Sysno.isValid T nid then some nid else Sysno.nextLoopAux T k (nid + 1)

/-- Scan loop of `Sysno::next` entered at `nid`: the fuel `last - nid`
decreases by exactly one per iteration, matching the `while` guard. -/
def Sysno.nextLoop (T : SyscallTable) (nid : Nat) : Option Nat :=
  Sysno.nextLoopAux T (Sysno.last T - nid) nid

/-- Successor `Sysno::next`: `None` at `last()`, otherwise the scan loop
started at `id + 1`. -/
def Sysno.next (T : SyscallTable) (id : Nat) : Option Nat :=
  if id = Sysno.last T then none
  else Sysno.nextLoop T (id + 1)

/-- Iteration `Sysno::iter()`, i.e. `successors(Some(first()), |x| x.next())`
collected into a list. Because `next` strictly increases the id and never
exceeds `last`, `table_size` steps of fuel always suffice. -/
def Sysno.iterAux (T : SyscallTable) : Nat → Nat → List Nat
  | 0, s => [s]
  | Nat.succ k, s =>
    s ::
      (match Sysno.next T s with
        | none => []
        | some t => Sysno.iterAux T k t)

/-- Iteration `Sysno::iter()` from `first()`. -/
def Sysno.iter (T : SyscallTable) : List Nat :=
  Sysno.iterAux T (Sysno.table_size T) (Sysno.first T)

/-- Conversion `From<u32> for Sysno`: `Sysno::new(id).unwrap_or_else(panic)`.
The panicking branch is modelled by `none`. -/
def Sysno.fromU32 (T : SyscallTable) (id : Nat) : Option Nat :=
  Sysno.new T id

/-- A small concrete syscall table used to evaluate the embedding: ids 0
(read), 1 (write) and 3 (close), with a hole at id 2. Real architecture
tables have the same shape: at least two entries and at least one hole. -/
def T0 : SyscallTable := ⟨[0, 1, 3], ["read", "write", "close"]⟩

/-! The SysnoSet bitset (src/set.rs). -/
/-- Word count `words::<usize>(bits)` from src/set.rs, with the degenerate
zero-width branch of the source. -/
def wordsFor (W bits : Nat) : Nat :=
  if W = 0 then 0 else bits / W + (if bits % W ≠ 0 then 1 else 0)

/-- Bitwise complement of a `W`-bit word (Rust `!mask` on `usize`). -/
def usizeNot (W x : Nat) : Nat := (2 ^ W - 1) ^^^ x

/-- Rotation `usize::rotate_left` on a `W`-bit word. -/
def usizeRotl (W x n : Nat) : Nat :=
  ((x <<< (n % W)) ||| (x >>> (W - n % W))) % 2 ^ W

/-- Trailing-zero count `usize::trailing_zeros` of a `W`-bit word: the
position of the lowest set bit, or `W` when no bit is set. -/
def trailingZeros (W w : Nat) : Nat :=
  ((List.range W).find? (fun b => w.testBit b)).getD W

/-- Population count `usize::count_ones` of a `W`-bit word: the number of
set bit positions. -/
def popCount (W w : Nat) : Nat := (List.range W).countP (fun b => w.testBit b)

/-- The set structure `SysnoSet { data: [usize; words(table_size)] }`. -/
structure SysnoSet where
  data : List Nat
  deriving DecidableEq

/-- Index and mask `SysnoSet::get_idx_mask`: `bit = id - first`, word index
`bit / W`, mask `1 << (bit % W)`. -/
def SysnoSet.get_idx_mask (T : SyscallTable) (W : Nat) (sysno : Nat) :
    Nat × Nat :=
  let bit := sysno - Sysno.first T
  (bit / W, 1 <<< (bit % W))

/-- Constructor `SysnoSet::empty()`: all words zero. -/
def SysnoSet.empty (T : SyscallTable) (W : Nat) : SysnoSet :=
  ⟨List.replicate (wordsFor W (Sysno.table_size T)) 0⟩

/-- Constructor `SysnoSet::new(&[Sysno])`: starting from `empty`, or in the
mask of each listed syscall in order. -/
def SysnoSet.newSet (T : SyscallTable) (W : Nat) (syscalls : List Nat) :
    SysnoSet :=
  syscalls.foldl
    (fun s x =>
      let im := SysnoSet.get_idx_mask T W x
      ⟨s.data.set im.1 (s.data.getD im.1 0 ||| im.2)⟩)
    (SysnoSet.empty T W)

/-- Constructor `SysnoSet::all()`: `new` applied to the `ALL` slice. -/
def SysnoSet.allSet (T : SyscallTable) (W : Nat) : SysnoSet :=
  SysnoSet.newSet T W T.ids

/-- Membership `SysnoSet::contains`: `data[idx] & mask != 0`. -/
def SysnoSet.contains (T : SyscallTable) (W : Nat) (s : SysnoSet)
    (sysno : Nat) : Bool :=
  let im := SysnoSet.get_idx_mask T W sysno
  decide (s.data.getD im.1 0 &&& im.2 ≠ 0)

/-- Emptiness `SysnoSet::is_empty`: all words zero. -/
def SysnoSet.is_empty (s : SysnoSet) : Bool :=
  s.data.all (fun x => x == 0)

/-- Reset `SysnoSet::clear`: zero every word in place. -/
def SysnoSet.clearSet (s : SysnoSet) : SysnoSet :=
  ⟨s.data.map (fun _ => 0)⟩

/-- Cardinality `SysnoSet::count`: fold of `count_ones` over the words. -/
def SysnoSet.countSet (W : Nat) (s : SysnoSet) : Nat :=
  s.data.foldl (fun acc x => acc + popCount W x) 0

/-- Insertion `SysnoSet::insert`: or in the mask, returning whether the bit
was previously clear. -/
def SysnoSet.insert (T : SyscallTable) (W : Nat) (s : SysnoSet)
    (sysno : Nat) : Bool × SysnoSet :=
  let im := SysnoSet.get_idx_mask T W sysno
  let old_value := s.data.getD im.1 0 &&& im.2
  (decide (old_value = 0), ⟨s.data.set im.1 (s.data.getD im.1 0 ||| im.2)⟩)

/-- Removal `SysnoSet::remove`: and with the complemented mask, returning
whether the bit was previously set. -/
def SysnoSet.remove (T : SyscallTable) (W : Nat) (s : SysnoSet)
    (sysno : Nat) : Bool × SysnoSet :=
  let im := SysnoSet.get_idx_mask T W sysno
  let old_value := s.data.getD im.1 0 &&& im.2
  (decide (old_value ≠ 0),
    ⟨s.data.set im.1 (s.data.getD im.1 0 &&& usizeNot W im.2)⟩)

/-- Union `SysnoSet::union`: word-wise or. -/
def SysnoSet.union (a b : SysnoSet) : SysnoSet :=
  ⟨List.zipWith (fun x y => x ||| y) a.data b.data⟩

/-- Intersection `SysnoSet::intersection`: word-wise and. -/
def SysnoSet.intersection (a b : SysnoSet) : SysnoSet :=
  ⟨List.zipWith (fun x y => x &&& y) a.data b.data⟩

/-- Difference `SysnoSet::difference`: word-wise and-not. -/
def SysnoSet.difference (W : Nat) (a b : SysnoSet) : SysnoSet :=
  ⟨List.zipWith (fun x y => x &&& usizeNot W y) a.data b.data⟩

/-- Symmetric difference `SysnoSet::symmetric_difference`: word-wise xor. -/
def SysnoSet.symmetric_difference (a b : SysnoSet) : SysnoSet :=
  ⟨List.zipWith (fun x y => x ^^^ y) a.data b.data⟩

/-- Length constraint enforced in Rust by the array type
`[usize; words(table_size)]`. -/
def SysnoSet.hasLen (T : SyscallTable) (W : Nat) (s : SysnoSet) : Prop :=
  s.data.length = wordsFor W (Sysno.table_size T)

instance (T : SyscallTable) (W : Nat) (s : SysnoSet) :
    Decidable (SysnoSet.hasLen T W s) := by
  unfold SysnoSet.hasLen
  infer_instance

/-! The SysnoSet iterator (src/set.rs, SysnoSetIter / NonZeroUsizeIter). -/
/-- Iterator state: the words not yet consumed by the word iterator, the
number of words consumed so far (`NonZeroUsizeIter::count`), and the
current partially-consumed word (`None` once exhausted; always nonzero
otherwise). -/
structure SysnoSetIter where
  rest : List Nat
  count : Nat
  current : Option Nat

/-- Word scan `NonZeroUsizeIter::next`: consume words, incrementing `count`
for each consumed word (zero words included), until a nonzero word is
found. Returns the word found (if any), the unconsumed words, and the
updated count. -/
def nonZeroNext : List Nat → Nat → Option Nat × List Nat × Nat
  | [], c => (none, [], c)
  | w :: ws, c => if w ≠ 0 then (some w, ws, c + 1) else nonZeroNext ws (c + 1)

/-- Construction `SysnoSetIter::new`: prime `current` with the first
nonzero word. -/
def SysnoSetIter.new (data : List Nat) : SysnoSetIter :=
  let r := nonZeroNext data 0
  ⟨r.2.1, r.2.2, r.1⟩

/-- One iterator step (`Iterator::next` for `SysnoSetIter`): take the
current word, find its lowest set bit with `trailing_zeros`, clear that bit
with the rotated mask `(!1usize).rotate_left(bit)`, refill `current` from
the word iterator when the word is exhausted, and yield
`index * W + bit + first`. The source converts that id with `Sysno::from`,
which panics when the id is invalid; the raw id is yielded here and the
invariant claim shows the conversion succeeds on reachable sets. -/
def SysnoSetIter.step (T : SyscallTable) (W : Nat) (st : SysnoSetIter) :
    Option (Nat × SysnoSetIter) :=
  match st.current with
  | none => none
  | some word =>
    let index := st.count - 1
    let bit := trailingZeros W word
    let next_word := word &&& usizeRotl W (usizeNot W 1) bit
    let st' :=
      if next_word ≠ 0 then SysnoSetIter.mk st.rest st.count (some next_word)
      else
        let r := nonZeroNext st.rest st.count
        SysnoSetIter.mk r.2.1 r.2.2 r.1
    some (index * W + bit + Sysno.first T, st')

/-- Collection of the iterator's yields into a list. `fuel` bounds the
number of steps; the adequacy lemmas show that the popcount of the set is
exactly the number of yields, so it is used as the fuel. -/
def SysnoSetIter.collect (T : SyscallTable) (W : Nat) :
    Nat → SysnoSetIter → List Nat
  | 0, _ => []
  | Nat.succ f, st =>
    match SysnoSetIter.step T W st with
    | none => []
    | some (x, st') => x :: SysnoSetIter.collect T W f st'

/-- The full sequence `SysnoSet::iter` yields. -/
def SysnoSet.iterList (T : SyscallTable) (W : Nat) (s : SysnoSet) :
    List Nat :=
  SysnoSetIter.collect T W (SysnoSet.countSet W s) (SysnoSetIter.new s.data)

/-! Specification functions for the iterator proofs. -/
/-- Positions of the set bits of a word below `W`, in ascending order. -/
def bitsOfWord (W w : Nat) : List Nat :=
  (List.range W).filter (fun b => w.testBit b)

/-- Global bit positions of a list of words whose first word has index `k`,
in ascending order. -/
def wordsBits (W : Nat) : List Nat → Nat → List Nat
  | [], _ => []
  | w :: ws, k =>
    (bitsOfWord W w).map (fun b => k * W + b) ++ wordsBits W ws (k + 1)

/-! Adequacy of the iterator machine. -/
/-- Total popcount of a list of words. -/
def sumPop (W : Nat) (ws : List Nat) : Nat := (ws.map (popCount W)).sum

/-- Machine invariant: stored words fit in `W` bits and the current word,
when present, is nonzero (NonZeroUsize). -/
def SysnoSetIter.inv (W : Nat) (st : SysnoSetIter) : Prop :=
  (∀ v ∈ st.rest, v < 2 ^ W) ∧ ∀ w, st.current = some w → w ≠ 0 ∧ w < 2 ^ W

/-- Number of elements the machine has left to yield. -/
def SysnoSetIter.numItems (W : Nat) (st : SysnoSetIter) : Nat :=
  (match st.current with
    | none => 0
    | some w => popCount W w) + sumPop W st.rest

/-- Expected remaining output of the machine (global bit positions). -/
def SysnoSetIter.expected (W : Nat) (st : SysnoSetIter) : List Nat :=
  match st.current with
  | none => []
  | some w =>
    (bitsOfWord W w).map (fun b => (st.count - 1) * W + b)
      ++ wordsBits W st.rest st.count

/-- Reachability invariant for a SysnoSet: the backing array has the fixed
word count, every word fits in `W` bits, and every set bit position `g`
corresponds to the valid syscall id `first() + g`. -/
def SysnoSet.inv (T : SyscallTable) (W : Nat) (s : SysnoSet) : Prop :=
  SysnoSet.hasLen T W s ∧ (∀ v ∈ s.data, v < 2 ^ W) ∧
    ∀ g, (s.data.getD (g / W) 0).testBit (g % W) = true →
      Sysno.isValid T (Sysno.first T + g) = true

/-- The states a SysnoSet can reach through the public API: `empty`, `all`,
`new`, `insert`, `remove`, `clear`, the four algebra operations, and
`extend`/`from_iter` (a fold of `insert`). -/
inductive SysnoSet.Reachable (T : SyscallTable) (W : Nat) : SysnoSet → Prop
  | empty : SysnoSet.Reachable T W (SysnoSet.empty T W)
  | all : SysnoSet.Reachable T W (SysnoSet.allSet T W)
  | newSet (l : List Nat) (h : ∀ x ∈ l, Sysno.isValid T x = true) :
      SysnoSet.Reachable T W (SysnoSet.newSet T W l)
  | insert (s : SysnoSet) (x : Nat) (hs : SysnoSet.Reachable T W s)
      (hx : Sysno.isValid T x = true) :
      SysnoSet.Reachable T W (SysnoSet.insert T W s x).2
  | remove (s : SysnoSet) (x : Nat) (hs : SysnoSet.Reachable T W s)
      (hx : Sysno.isValid T x = true) :
      SysnoSet.Reachable T W (SysnoSet.remove T W s x).2
  | clear (s : SysnoSet) (hs : SysnoSet.Reachable T W s) :
      SysnoSet.Reachable T W (SysnoSet.clearSet s)
  | union (a b : SysnoSet) (ha : SysnoSet.Reachable T W a)
      (hb : SysnoSet.Reachable T W b) :
      SysnoSet.Reachable T W (SysnoSet.union a b)
  | inter (a b : SysnoSet) (ha : SysnoSet.Reachable T W a)
      (hb : SysnoSet.Reachable T W b) :
      SysnoSet.Reachable T W (SysnoSet.intersection a b)
  | diff (a b : SysnoSet) (ha : SysnoSet.Reachable T W a)
      (hb : SysnoSet.Reachable T W b) :
      SysnoSet.Reachable T W (SysnoSet.difference W a b)
  | sdiff (a b : SysnoSet) (ha : SysnoSet.Reachable T W a)
      (hb : SysnoSet.Reachable T W b) :
      SysnoSet.Reachable T W (SysnoSet.symmetric_difference a b)
  | extend (s : SysnoSet) (l : List Nat) (hs : SysnoSet.Reachable T W s)
      (h : ∀ x ∈ l, Sysno.isValid T x = true) :
      SysnoSet.Reachable T W
        (l.foldl (fun s x => (SysnoSet.insert T W s x).2) s)

/-! The SysnoMap container (src/map.rs). -/
/-- Slot index `get_idx` from src/map.rs: `id - first`. -/
def get_idx (T : SyscallTable) (sysno : Nat) : Nat := sysno - Sysno.first T

/-- The map structure `SysnoMap { is_set: SysnoSet, data: [MaybeUninit<T>;
table_size] }`. A slot is modelled as `Option α`, with `none` standing for
uninitialized memory. -/
structure SysnoMap (α : Type) where
  is_set : SysnoSet
  data : List (Option α)

/-- Constructor `SysnoMap::new`: empty liveness set, every slot
uninitialized. -/
def SysnoMap.newMap (T : SyscallTable) (W : Nat) (α : Type) : SysnoMap α :=
  ⟨SysnoSet.empty T W, List.replicate (Sysno.table_size T) none⟩

/-- Query `SysnoMap::contains_key`: delegates to the liveness set. -/
def SysnoMap.contains_key (T : SyscallTable) (W : Nat) {α : Type}
    (m : SysnoMap α) (sysno : Nat) : Bool :=
  SysnoSet.contains T W m.is_set sysno

/-- Insertion `SysnoMap::insert`: set the liveness bit first; on a freshly
live slot write the value and return `None`, otherwise replace the slot and
return the previous value (which the source reads with `assume_init`; sound
because the slot was live). -/
def SysnoMap.insert (T : SyscallTable) (W : Nat) {α : Type} (m : SysnoMap α)
    (sysno : Nat) (value : α) : Option α × SysnoMap α :=
  let r := SysnoSet.insert T W m.is_set sysno
  if r.1 then
    (none, ⟨r.2, m.data.set (get_idx T sysno) (some value)⟩)
  else
    (m.data.getD (get_idx T sysno) none,
      ⟨r.2, m.data.set (get_idx T sysno) (some value)⟩)

/-- Removal `SysnoMap::remove`: clear the liveness bit; if it was set, move
the value out and leave the slot uninitialized. -/
def SysnoMap.remove (T : SyscallTable) (W : Nat) {α : Type} (m : SysnoMap α)
    (sysno : Nat) : Option α × SysnoMap α :=
  let r := SysnoSet.remove T W m.is_set sysno
  if r.1 then
    (m.data.getD (get_idx T sysno) none,
      ⟨r.2, m.data.set (get_idx T sysno) none⟩)
  else
    (none, ⟨r.2, m.data⟩)

/-- Lookup `SysnoMap::get`: read the slot only when the liveness bit is
set. -/
def SysnoMap.get (T : SyscallTable) (W : Nat) {α : Type} (m : SysnoMap α)
    (sysno : Nat) : Option α :=
  if SysnoSet.contains T W m.is_set sysno then
    m.data.getD (get_idx T sysno) none
  else
    none

/-- Reset `SysnoMap::clear`: iterate the liveness set, deinitializing
(`assume_init_drop`) each live slot in iteration order, then clear the set.
The second component records the slot indices deinitialized, in order, to
express the exactly-once obligation; the data array itself is not
overwritten, matching the source. -/
def SysnoMap.clear (T : SyscallTable) (W : Nat) {α : Type}
    (m : SysnoMap α) : SysnoMap α × List Nat :=
  (⟨SysnoSet.clearSet m.is_set, m.data⟩,
    (SysnoSet.iterList T W m.is_set).map (fun sysno => get_idx T sysno))

/-- Destruction `impl Drop for SysnoMap`: the body is exactly `self.clear()`. -/
def SysnoMap.dropMap (T : SyscallTable) (W : Nat) {α : Type}
    (m : SysnoMap α) : SysnoMap α × List Nat :=
  SysnoMap.clear T W m

/-- Iteration `SysnoMap::iter` (via `SysnoMapIter`): every yield of the
shared set iterator is paired with its slot. -/
def SysnoMap.iterList (T : SyscallTable) (W : Nat) {α : Type}
    (m : SysnoMap α) : List (Nat × Option α) :=
  (SysnoSet.iterList T W m.is_set).map
    (fun sysno => (sysno, m.data.getD (get_idx T sysno) none))

/-- Reachability invariant for a SysnoMap: the liveness set satisfies the
set invariant, the slot array has `table_size` entries, and every live
slot is initialized. -/
def SysnoMap.inv (T : SyscallTable) (W : Nat) {α : Type}
    (m : SysnoMap α) : Prop :=
  SysnoSet.inv T W m.is_set ∧ m.data.length = Sysno.table_size T ∧
    ∀ x ∈ T.ids, SysnoSet.contains T W m.is_set x = true →
      (m.data.getD (get_idx T x) none).isSome = true

/-- The states a SysnoMap can reach through the public API. -/
inductive SysnoMap.Reachable (T : SyscallTable) (W : Nat) {α : Type} :
    SysnoMap α → Prop
  | newMap : SysnoMap.Reachable T W (SysnoMap.newMap T W α)
  | insert (m : SysnoMap α) (x : Nat) (v : α)
      (hm : SysnoMap.Reachable T W m) (hx : Sysno.isValid T x = true) :
      SysnoMap.Reachable T W (SysnoMap.insert T W m x v).2
  | remove (m : SysnoMap α) (x : Nat) (hm : SysnoMap.Reachable T W m)
      (hx : Sysno.isValid T x = true) :
      SysnoMap.Reachable T W (SysnoMap.remove T W m x).2
  | clear (m : SysnoMap α) (hm : SysnoMap.Reachable T W m) :
      SysnoMap.Reachable T W (SysnoMap.clear T W m).1

/-- A small concrete map used by the witnesses: slot 1 holds 42. -/
def m0c : SysnoMap Nat :=
  (SysnoMap.insert T0 8 (SysnoMap.newMap T0 8 Nat) 1 42).2

/-! Ordering facts about well-formed tables. -/
/-- Pairwise-increasing lists are bounded by their last element. -/
theorem pairwise_le_getLast? {l : List Nat} (hp : List.Pairwise (· < ·) l)
    {x y : Nat} (hx : x ∈ l) (hy : l.getLast? = some y) : x ≤ y := by
  induction l with
  | nil => cases hx
  | cons a t ih =>
    cases t with
    | nil =>
      simp at hx hy
      omega
    | cons b t2 =>
      rw [List.getLast?_cons_cons] at hy
      rcases List.mem_cons.mp hx with rfl | hx2
      · have hlt : x < y := by
          have hmem : y ∈ b :: t2 := List.mem_of_getLast?_eq_some hy
          exact (List.pairwise_cons.mp hp).1 y hmem
        omega
      · exact ih (List.pairwise_cons.mp hp).2 hx2 hy

/-- Every member of a well-formed table is at least `first()`. -/
theorem SyscallTable.first_le_mem {T : SyscallTable} (hwf : T.WF) {x : Nat}
    (hx : x ∈ T.ids) : Sysno.first T ≤ x := by
  obtain ⟨hne, hsorted, -, -⟩ := hwf
  cases hids : T.ids with
  | nil => exact absurd hids hne
  | cons a t =>
    rw [hids] at hx hsorted
    rcases List.mem_cons.mp hx with rfl | hx2
    · simp [Sysno.first, hids]
    · have : a < x := (List.pairwise_cons.mp hsorted).1 x hx2
      simp [Sysno.first, hids]
      omega

/-- Every member of a well-formed table is at most `last()`. -/
theorem SyscallTable.mem_le_last {T : SyscallTable} (hwf : T.WF) {x : Nat}
    (hx : x ∈ T.ids) : x ≤ Sysno.last T := by
  obtain ⟨hne, hsorted, -, -⟩ := hwf
  cases hids : T.ids with
  | nil => exact absurd hids hne
  | cons a t =>
    rw [hids] at hx hsorted
    have hy : (a :: t).getLast? = some ((a :: t).getLast (by simp)) :=
      List.getLast?_eq_getLast _ _
    have := pairwise_le_getLast? hsorted hx hy
    simp only [Sysno.last, hids, List.getLastD_eq_getLast?, hy, Option.getD_some]
    exact this

/-- Validity is the same as membership in the id table. -/
theorem Sysno.isValid_iff_mem {T : SyscallTable} {id : Nat} :
    Sysno.isValid T id = true ↔ id ∈ T.ids := by
  simp [Sysno.isValid]

/-! Claimed properties of the errno translator. -/
/-- Computation of the stored error code on the error path. -/
theorem wrapI32_window {w value : Nat} (hw : 32 ≤ w) (hv : value < 2 ^ w)
    (hlo : 2 ^ w - 4096 < value) :
    wrapI32 (-(usizeAsI32 value)) = (2 ^ w : Int) - (value : Int) := by
  obtain ⟨d, hd⟩ : ∃ d : Nat, 2 ^ w = 2 ^ 32 * d :=
    ⟨2 ^ (w - 32), by rw [← pow_add]; congr 1; omega⟩
  have hple : (4096 : Nat) ≤ 2 ^ w :=
    le_trans (by norm_num) (Nat.pow_le_pow_right (by norm_num) hw)
  have hdI : ((2 : Int) ^ w) = 2 ^ 32 * (d : Int) := by exact_mod_cast hd
  have hvI : ((value : Int)) < 2 ^ w := by exact_mod_cast hv
  have hloI : (2 : Int) ^ w - 4096 < (value : Int) := by
    have : ((2 ^ w - 4096 : Nat) : Int) < (value : Int) := by exact_mod_cast hlo
    omega
  set k : Int := (2 : Int) ^ w - (value : Int) with hk
  have hk1 : 1 ≤ k := by omega
  have hk2 : k ≤ 4095 := by omega
  have hval : (value : Int) + 2 ^ 31 = (2 ^ 31 - k) + 2 ^ 32 * (d : Int) := by
    rw [hk, hdI]; ring
  have h1 : ((value : Int) + 2 ^ 31) % 2 ^ 32 = 2 ^ 31 - k := by
    rw [hval, Int.add_mul_emod_self_left, Int.emod_eq_of_lt (by omega) (by omega)]
  have h2 : usizeAsI32 value = -k := by
    rw [usizeAsI32, wrapI32, h1]; ring
  rw [h2, wrapI32]
  have h3 : (-(-k) + 2 ^ 31) % 2 ^ 32 = k + 2 ^ 31 := by
    rw [Int.emod_eq_of_lt (by omega) (by omega)]; ring
  rw [h3]; ring

/-- C1 (amended): for every raw result word of `w` bits, `Errno::from_ret`
is `Ok(raw)` unchanged exactly when `raw` is outside the top 4095 values of
the word range, i.e. `raw ≤ 2^w - 4096`; on the window `[2^w - 4095, 2^w - 1]`
(signed `[-4095, -1]`) it is `Err` with code `2^w - raw`, which is the
negation `-(raw as signed)` of the raw value read as a signed word. -/
theorem c1_from_ret_window (w value : Nat) (hw : 32 ≤ w) (hv : value < 2 ^ w) :
    ((Errno.from_ret w value).isOk = true ↔ value ≤ 2 ^ w - 4096)
    ∧ (2 ^ w - 4096 < value →
        Errno.from_ret w value =
          Except.error (Errno.new ((2 ^ w : Int) - (value : Int))))
    ∧ (value ≤ 2 ^ w - 4096 → Errno.from_ret w value = Except.ok value) := by
  refine ⟨?_, ?_, ?_⟩
  · by_cases h : value > 2 ^ w - 4096
    · rw [Errno.from_ret, if_pos h]
      have hnb : ¬value ≤ 2 ^ w - 4096 := by omega
      simp [Except.isOk, Except.toBool, hnb]
    · rw [Errno.from_ret, if_neg h]
      have hb : value ≤ 2 ^ w - 4096 := by omega
      simp [Except.isOk, Except.toBool, hb]
  · intro h
    rw [Errno.from_ret, if_pos h, wrapI32_window hw hv h]
  · intro h
    rw [Errno.from_ret, if_neg (by omega)]

/-- C1 witness: at the all-ones 64-bit word, the theorem gives the error
with positive code 1 (i.e. EPERM's slot from the raw value -1). -/
theorem c1_from_ret_window_witness :
    Errno.from_ret 64 (2 ^ 64 - 1) = Except.error (Errno.new 1) := by
  have h := (c1_from_ret_window 64 (2 ^ 64 - 1) (by norm_num)
    (by norm_num)).2.1 (by norm_num)
  rw [h]
  have : ((2 : Int) ^ 64) - ((2 ^ 64 - 1 : Nat) : Int) = 1 := by
    have : ((2 ^ 64 - 1 : Nat) : Int) = 2 ^ 64 - 1 := by
      rw [Nat.cast_sub (by norm_num)]; norm_num
    omega
  rw [this]

/-- C1 counterexample: the claim asserts the error window is the top 4096
values `[WordMax - 4095, WordMax]`, so the raw value `WordMax - 4095 =
2^64 - 4096` (signed `-4096`) would have to produce `Err`; the code returns
it unchanged as `Ok` because its comparison is strict. -/
theorem c1_from_ret_window_counterexample :
    Errno.from_ret 64 ((2 ^ 64 - 1) - 4095) = Except.ok ((2 ^ 64 - 1) - 4095) := by
  rw [Errno.from_ret, if_neg (by norm_num)]

/-- C9 (amended): `Errno::is_valid` tests only the upper bound
`into_raw < 4096` (negative codes also pass, since the source has no lower
bound check), and every `Errno` produced by `from_ret` on an error-window
input has a code strictly between 0 and 4096. -/
theorem c9_is_valid_range :
    (∀ e : Errno, e.is_valid = true ↔ e.into_raw < 4096)
    ∧ (∀ w value : Nat, 32 ≤ w → value < 2 ^ w → 2 ^ w - 4096 < value →
        ∃ e : Errno, Errno.from_ret w value = Except.error e ∧
          0 < e.into_raw ∧ e.into_raw < 4096 ∧ e.is_valid = true) := by
  constructor
  · intro e
    simp [Errno.is_valid, Errno.into_raw]
  · intro w value hw hv hlo
    refine ⟨Errno.new ((2 ^ w : Int) - (value : Int)), ?_, ?_, ?_, ?_⟩
    · rw [Errno.from_ret, if_pos hlo, wrapI32_window hw hv hlo]
    · have : ((value : Int)) < 2 ^ w := by exact_mod_cast hv
      simp [Errno.new, Errno.into_raw]
      omega
    · have h4096 : (4096 : Nat) ≤ 2 ^ w :=
        le_trans (by norm_num) (Nat.pow_le_pow_right (by norm_num) hw)
      have : ((2 ^ w - 4096 : Nat) : Int) < (value : Int) := by exact_mod_cast hlo
      have hcast : ((2 ^ w - 4096 : Nat) : Int) = (2 : Int) ^ w - 4096 := by
        rw [Nat.cast_sub h4096]; norm_num
      simp [Errno.new, Errno.into_raw]
      omega
    · have h4096 : (4096 : Nat) ≤ 2 ^ w :=
        le_trans (by norm_num) (Nat.pow_le_pow_right (by norm_num) hw)
      have : ((2 ^ w - 4096 : Nat) : Int) < (value : Int) := by exact_mod_cast hlo
      have hcast : ((2 ^ w - 4096 : Nat) : Int) = (2 : Int) ^ w - 4096 := by
        rw [Nat.cast_sub h4096]; norm_num
      simp [Errno.new, Errno.is_valid]
      omega

/-- C9 witness: a concrete valid code, and the concrete error produced at
the all-ones 32-bit word. -/
theorem c9_is_valid_range_witness :
    ((Errno.new 5).is_valid = true)
    ∧ (∃ e : Errno, Errno.from_ret 32 (2 ^ 32 - 1) = Except.error e ∧
        0 < e.into_raw ∧ e.into_raw < 4096 ∧ e.is_valid = true) :=
  ⟨(c9_is_valid_range.1 (Errno.new 5)).mpr (by decide),
    c9_is_valid_range.2 32 (2 ^ 32 - 1) (by norm_num) (by norm_num) (by norm_num)⟩

/-- C9 counterexample: the claim asserts `is_valid` is equivalent to
`0 ≤ into_raw < 4096`; the code accepts the negative code `-1`. -/
theorem c9_is_valid_range_counterexample :
    (Errno.new (-1)).is_valid = true ∧ ¬(0 ≤ (Errno.new (-1)).into_raw) := by
  constructor
  · decide
  · decide

/-- C2 evaluation at the failing input: on the table with ids 0, 1, 3 (last
syscall 3, preceded by the hole 2), `next` on the valid syscall 1 returns
`None` — the scan loop stops strictly before `last()` and the fall-through
returns `None` instead of the last syscall — so `iter()` stops at 1,
yielding 2 items instead of `count() = 3` and never reaching `last() = 3`. -/
theorem c2_next_skips_last :
    Sysno.next T0 1 = none
    ∧ Sysno.isValid T0 3 = true
    ∧ Sysno.last T0 = 3
    ∧ Sysno.iter T0 = [0, 1]
    ∧ Sysno.count T0 = 3
    ∧ (Sysno.iter T0).length = 2 := by
  refine ⟨by decide, by decide, by decide, by decide, by decide, by decide⟩

/-- C5: on a well-formed table, `Sysno::new(id)` succeeds exactly on valid
(name-bearing) ids, in which case the id round-trips and the name is
nonempty; every id outside `[first(), last()]` is rejected. -/
theorem c5_sysno_new_valid (T : SyscallTable) (hwf : T.WF) (id : Nat) :
    ((Sysno.new T id).isSome = true ↔ Sysno.isValid T id = true)
    ∧ (Sysno.isValid T id = true →
        Sysno.new T id = some id ∧ Sysno.name T id ≠ "")
    ∧ (id < Sysno.first T ∨ Sysno.last T < id → Sysno.new T id = none) := by
  refine ⟨?_, fun hv => ⟨?_, ?_⟩, ?_⟩
  · rw [Sysno.new]
    by_cases h : Sysno.isValid T id = true
    · simp [h]
    · simp [h]
  · rw [Sysno.new, if_pos ‹_›]
  · obtain ⟨-, -, hlen, hnames⟩ := hwf
    have hmem : id ∈ T.ids := Sysno.isValid_iff_mem.mp ‹_›
    have hidx : T.ids.indexOf id < T.names.length := by
      rw [hlen]
      exact List.indexOf_lt_length.mpr hmem
    rw [Sysno.name, List.getD_eq_getElem?_getD, List.getElem?_eq_getElem hidx]
    exact hnames _ (List.getElem_mem hidx)
  · intro hout
    rw [Sysno.new, if_neg]
    intro hv
    have hmem : id ∈ T.ids := Sysno.isValid_iff_mem.mp hv
    have h1 := SyscallTable.first_le_mem hwf hmem
    have h2 := SyscallTable.mem_le_last hwf hmem
    omega

/-- C5 witness: the concrete table T0 is well-formed; id 1 round-trips with
name "write", and the out-of-range id 7 is rejected. -/
theorem c5_sysno_new_valid_witness :
    (Sysno.new T0 1 = some 1 ∧ Sysno.name T0 1 ≠ "")
    ∧ Sysno.new T0 7 = none := by
  have hwf : T0.WF := by
    refine ⟨by decide, by decide, by decide, by decide⟩
  exact ⟨(c5_sysno_new_valid T0 hwf 1).2.1 (by decide),
    (c5_sysno_new_valid T0 hwf 7).2.2 (Or.inr (by decide))⟩

/-! Basic list and bit lemmas for the set operations. -/
/-- Reading back the word just written. -/
theorem getD_set_self {l : List Nat} {i : Nat} {a : Nat} (h : i < l.length) :
    (l.set i a).getD i 0 = a := by
  rw [List.getD_eq_getElem?_getD, List.getElem?_set_self (by simpa using h)]
  rfl

/-- The mask test `y &&& (1 << b) != 0` is the `b`-th bit of `y`. -/
theorem decide_and_two_pow (y b : Nat) :
    decide (y &&& 2 ^ b ≠ 0) = y.testBit b := by
  rw [Nat.and_two_pow]
  cases h : y.testBit b
  · simp
  · simp [Nat.pos_iff_ne_zero, Nat.pow_pos]

/-- Membership as a bit test. -/
theorem contains_eq_testBit (T : SyscallTable) (W : Nat) (s : SysnoSet)
    (x : Nat) :
    SysnoSet.contains T W s x =
      (s.data.getD ((x - Sysno.first T) / W) 0).testBit
        ((x - Sysno.first T) % W) := by
  rw [SysnoSet.contains, SysnoSet.get_idx_mask]
  simp only [Nat.shiftLeft_eq, one_mul]
  exact decide_and_two_pow _ _

/-- Complement flips exactly the bits below `W`. -/
theorem testBit_usizeNot {W m : Nat} {i : Nat} (hi : i < W) :
    (usizeNot W m).testBit i = !m.testBit i := by
  simp [usizeNot, Nat.testBit_two_pow_sub_one, hi]

/-- A word list always covers `n` bits with `wordsFor W n` words. -/
theorem le_wordsFor_mul {W n : Nat} (hW : 0 < W) : n ≤ wordsFor W n * W := by
  rw [wordsFor, if_neg (by omega)]
  have hdm := Nat.div_add_mod n W
  have hr : n % W < W := Nat.mod_lt n hW
  by_cases h : n % W = 0
  · rw [if_neg (by omega), Nat.add_zero, Nat.mul_comm]
    omega
  · rw [if_pos (by omega), Nat.add_mul, Nat.one_mul, Nat.mul_comm]
    omega

/-- The word index of a valid syscall is inside the backing array. -/
theorem idx_lt_words {T : SyscallTable} {W x : Nat} (hW : 0 < W)
    (hwf : T.WF) (hx : x ∈ T.ids) :
    (x - Sysno.first T) / W < wordsFor W (Sysno.table_size T) := by
  have h1 := SyscallTable.first_le_mem hwf hx
  have h2 := SyscallTable.mem_le_last hwf hx
  have hbit : x - Sysno.first T < Sysno.table_size T := by
    rw [Sysno.table_size]; omega
  have hle := le_wordsFor_mul (W := W) (n := Sysno.table_size T) hW
  rw [Nat.div_lt_iff_lt_mul hW]
  omega

/-- Reading a `zipWith` word. -/
theorem getD_zipWith {f : Nat → Nat → Nat} {a b : List Nat} {i : Nat}
    (hi : i < a.length) (hl : a.length = b.length) :
    (List.zipWith f a b).getD i 0 = f (a.getD i 0) (b.getD i 0) := by
  have hib : i < b.length := by omega
  rw [List.getD_eq_getElem?_getD, List.getD_eq_getElem?_getD,
    List.getD_eq_getElem?_getD, List.getElem?_zipWith,
    List.getElem?_eq_getElem hi, List.getElem?_eq_getElem hib]
  rfl

/-- C6: for every well-formed set and valid syscall, `insert` returns true
iff the syscall was absent and makes `contains` true; `remove` returns true
iff the syscall was present and makes `contains` false. -/
theorem c6_set_insert_remove (T : SyscallTable) (W : Nat) (hW : 0 < W)
    (hwf : T.WF) (s : SysnoSet) (hs : SysnoSet.hasLen T W s) (x : Nat)
    (hx : Sysno.isValid T x = true) :
    ((SysnoSet.insert T W s x).1 = !SysnoSet.contains T W s x)
    ∧ SysnoSet.contains T W (SysnoSet.insert T W s x).2 x = true
    ∧ ((SysnoSet.remove T W s x).1 = SysnoSet.contains T W s x)
    ∧ SysnoSet.contains T W (SysnoSet.remove T W s x).2 x = false := by
  have hmem : x ∈ T.ids := Sysno.isValid_iff_mem.mp hx
  have hidx : (x - Sysno.first T) / W < s.data.length := by
    rw [hs]; exact idx_lt_words hW hwf hmem
  have hbW : (x - Sysno.first T) % W < W := Nat.mod_lt _ hW
  refine ⟨?_, ?_, ?_, ?_⟩
  · rw [SysnoSet.insert, SysnoSet.get_idx_mask, contains_eq_testBit]
    simp only [Nat.shiftLeft_eq, one_mul, ← decide_and_two_pow]
    simp
  · rw [contains_eq_testBit, SysnoSet.insert, SysnoSet.get_idx_mask]
    simp only [Nat.shiftLeft_eq, one_mul]
    rw [getD_set_self hidx]
    simp [Nat.testBit_two_pow]
  · rw [SysnoSet.remove, SysnoSet.get_idx_mask, contains_eq_testBit]
    simp only [Nat.shiftLeft_eq, one_mul, ← decide_and_two_pow]
  · rw [contains_eq_testBit, SysnoSet.remove, SysnoSet.get_idx_mask]
    simp only [Nat.shiftLeft_eq, one_mul]
    rw [getD_set_self hidx]
    simp [testBit_usizeNot hbW, Nat.testBit_two_pow]

/-- C6 witness: on the table T0 with 8-bit words, inserting 1 into the
empty set reports a new element and makes it present; removing it reports
presence and clears it. -/
theorem c6_set_insert_remove_witness :
    ((SysnoSet.insert T0 8 (SysnoSet.empty T0 8) 1).1
        = !SysnoSet.contains T0 8 (SysnoSet.empty T0 8) 1)
    ∧ SysnoSet.contains T0 8
        (SysnoSet.insert T0 8 (SysnoSet.empty T0 8) 1).2 1 = true
    ∧ ((SysnoSet.remove T0 8 (SysnoSet.empty T0 8) 1).1
        = SysnoSet.contains T0 8 (SysnoSet.empty T0 8) 1)
    ∧ SysnoSet.contains T0 8
        (SysnoSet.remove T0 8 (SysnoSet.empty T0 8) 1).2 1 = false :=
  c6_set_insert_remove T0 8 (by decide) (by decide)
    (SysnoSet.empty T0 8) (by decide) 1 (by decide)

/-- C7: the set algebra operations act pointwise on membership: union is
disjunction, intersection is conjunction, difference is conjunction with
the complement, and symmetric difference is exclusive or. -/
theorem c7_set_algebra (T : SyscallTable) (W : Nat) (hW : 0 < W)
    (hwf : T.WF) (a b : SysnoSet) (ha : SysnoSet.hasLen T W a)
    (hb : SysnoSet.hasLen T W b) (x : Nat)
    (hx : Sysno.isValid T x = true) :
    SysnoSet.contains T W (SysnoSet.union a b) x
        = (SysnoSet.contains T W a x || SysnoSet.contains T W b x)
    ∧ SysnoSet.contains T W (SysnoSet.intersection a b) x
        = (SysnoSet.contains T W a x && SysnoSet.contains T W b x)
    ∧ SysnoSet.contains T W (SysnoSet.difference W a b) x
        = (SysnoSet.contains T W a x && !SysnoSet.contains T W b x)
    ∧ SysnoSet.contains T W (SysnoSet.symmetric_difference a b) x
        = xor (SysnoSet.contains T W a x) (SysnoSet.contains T W b x) := by
  have hmem : x ∈ T.ids := Sysno.isValid_iff_mem.mp hx
  have hidx : (x - Sysno.first T) / W < a.data.length := by
    rw [ha]; exact idx_lt_words hW hwf hmem
  have hlen : a.data.length = b.data.length := by rw [ha, hb]
  have hbW : (x - Sysno.first T) % W < W := Nat.mod_lt _ hW
  refine ⟨?_, ?_, ?_, ?_⟩
  · rw [contains_eq_testBit, contains_eq_testBit, contains_eq_testBit,
      SysnoSet.union, getD_zipWith hidx hlen]
    simp
  · rw [contains_eq_testBit, contains_eq_testBit, contains_eq_testBit,
      SysnoSet.intersection, getD_zipWith hidx hlen]
    simp
  · rw [contains_eq_testBit, contains_eq_testBit, contains_eq_testBit,
      SysnoSet.difference, getD_zipWith hidx hlen]
    simp [testBit_usizeNot hbW]
  · rw [contains_eq_testBit, contains_eq_testBit, contains_eq_testBit,
      SysnoSet.symmetric_difference, getD_zipWith hidx hlen]
    simp [Bool.xor_comm]

/-- C7 witness: sets {0, 1} and {1, 3} over T0 with 8-bit words, tested at
the valid syscall 1. -/
theorem c7_set_algebra_witness :
    SysnoSet.contains T0 8
        (SysnoSet.union
          (SysnoSet.newSet T0 8 [0, 1]) (SysnoSet.newSet T0 8 [1, 3])) 1
      = (SysnoSet.contains T0 8 (SysnoSet.newSet T0 8 [0, 1]) 1
          || SysnoSet.contains T0 8 (SysnoSet.newSet T0 8 [1, 3]) 1)
    ∧ SysnoSet.contains T0 8
        (SysnoSet.intersection
          (SysnoSet.newSet T0 8 [0, 1]) (SysnoSet.newSet T0 8 [1, 3])) 1
      = (SysnoSet.contains T0 8 (SysnoSet.newSet T0 8 [0, 1]) 1
          && SysnoSet.contains T0 8 (SysnoSet.newSet T0 8 [1, 3]) 1)
    ∧ SysnoSet.contains T0 8
        (SysnoSet.difference 8
          (SysnoSet.newSet T0 8 [0, 1]) (SysnoSet.newSet T0 8 [1, 3])) 1
      = (SysnoSet.contains T0 8 (SysnoSet.newSet T0 8 [0, 1]) 1
          && !SysnoSet.contains T0 8 (SysnoSet.newSet T0 8 [1, 3]) 1)
    ∧ SysnoSet.contains T0 8
        (SysnoSet.symmetric_difference
          (SysnoSet.newSet T0 8 [0, 1]) (SysnoSet.newSet T0 8 [1, 3])) 1
      = xor (SysnoSet.contains T0 8 (SysnoSet.newSet T0 8 [0, 1]) 1)
          (SysnoSet.contains T0 8 (SysnoSet.newSet T0 8 [1, 3]) 1) :=
  c7_set_algebra T0 8 (by decide) (by decide)
    (SysnoSet.newSet T0 8 [0, 1]) (SysnoSet.newSet T0 8 [1, 3])
    (by decide) (by decide) 1 (by decide)

/-- A word is nonzero exactly when it has a set bit below `W` (given that
it fits in `W` bits). -/
theorem exists_testBit_of_ne_zero {W w : Nat} (hw0 : w ≠ 0) (hw : w < 2 ^ W) :
    ∃ i, i < W ∧ w.testBit i = true := by
  have hex : ∃ i, w.testBit i = true := by
    by_contra hno
    push_neg at hno
    refine hw0 (Nat.zero_of_testBit_eq_false fun i => ?_)
    have := hno i
    simpa using this
  obtain ⟨i0, hi0⟩ := hex
  refine ⟨i0, ?_, hi0⟩
  by_contra hge
  push_neg at hge
  have hlt : w < 2 ^ i0 :=
    lt_of_lt_of_le hw (Nat.pow_le_pow_right (by norm_num) hge)
  rw [Nat.testBit_lt_two_pow hlt] at hi0
  cases hi0

/-- The trailing-zero count of a nonzero `W`-bit word is its least set bit. -/
theorem trailingZeros_spec {W w : Nat} (hw0 : w ≠ 0) (hw : w < 2 ^ W) :
    w.testBit (trailingZeros W w) = true ∧ trailingZeros W w < W ∧
      ∀ i, i < trailingZeros W w → w.testBit i = false := by
  obtain ⟨i0, hi0W, hi0⟩ := exists_testBit_of_ne_zero hw0 hw
  have hsome : ((List.range W).find? (fun b => w.testBit b)).isSome := by
    rw [List.find?_isSome]
    exact ⟨i0, List.mem_range.mpr hi0W, hi0⟩
  obtain ⟨b, hb⟩ := Option.isSome_iff_exists.mp hsome
  have htz : trailingZeros W w = b := by rw [trailingZeros, hb]; rfl
  obtain ⟨hpb, as, bs, hsplit, hfail⟩ := List.find?_eq_some.mp hb
  have hlenW : as.length < W := by
    have := congrArg List.length hsplit
    simp at this
    omega
  have hbval : b = as.length := by
    have h1 : (List.range W)[as.length]? = some as.length := by
      simp [List.getElem?_range, hlenW]
    rw [hsplit, List.getElem?_append_right (le_refl _)] at h1
    simp at h1
    omega
  have hasval : as = List.range as.length := by
    have h2 : (as ++ b :: bs).take as.length = as := List.take_left as _
    rw [← hsplit] at h2
    rw [List.take_range, Nat.min_eq_left (Nat.le_of_lt hlenW)] at h2
    exact h2.symm
  refine ⟨htz ▸ hpb, htz ▸ (hbval ▸ hlenW), ?_⟩
  intro i hi
  rw [htz] at hi
  have hmem : i ∈ as := by
    rw [hasval, List.mem_range]
    omega
  have := hfail i hmem
  simpa using this

/-- The rotated mask `(!1).rotate_left(b)` is the complement of the single
bit `b`. -/
theorem usizeRotl_not_one {W b : Nat} (hb : b < W) :
    usizeRotl W (usizeNot W 1) b = usizeNot W (2 ^ b) := by
  have hW : 0 < W := by omega
  have hbW : b % W = b := Nat.mod_eq_of_lt hb
  have hone : (1 : Nat) = 2 ^ 0 := by norm_num
  apply Nat.eq_of_testBit_eq
  intro i
  simp only [usizeRotl, usizeNot, hbW, Nat.testBit_mod_two_pow,
    Nat.testBit_or, Nat.testBit_shiftLeft, Nat.testBit_shiftRight,
    Nat.testBit_xor, Nat.testBit_two_pow_sub_one, hone, Nat.testBit_two_pow]
  by_cases hiW : i < W
  · by_cases hib : i = b
    · subst hib
      have e1 : i - i = 0 := Nat.sub_self i
      have e2 : W - i + i = W := by omega
      have e3 : ¬(0 = W) := by omega
      have e4 : ¬(W < W) := by omega
      have e5 : 0 < W := by omega
      simp [e1, e2, e3, e4, e5, hiW]
    · rcases Nat.lt_or_ge i b with hlt | hge
      · have f1 : ¬(b ≤ i) := by omega
        have f2 : W - b + i < W := by omega
        have f3 : ¬(0 = W - b + i) := by omega
        have f4 : ¬(b = i) := by omega
        simp [hiW, f1, f2, f3, f4]
      · have e1 : i - b < W := by omega
        have e2 : ¬(0 = i - b) := by omega
        have e3 : ¬(W - b + i < W) := by omega
        have e4 : ¬(0 = W - b + i) := by omega
        have e5 : ¬(b = i) := by omega
        have e6 : b ≤ i := by omega
        simp [hiW, e1, e2, e3, e4, e5, e6]
  · have g1 : ¬(b = i) := by omega
    simp [hiW, g1]

/-- Clearing bit `b` with the rotated mask leaves every other bit alone. -/
theorem testBit_maskOff {W w b : Nat} (hw : w < 2 ^ W) (hb : b < W)
    (i : Nat) :
    (w &&& usizeRotl W (usizeNot W 1) b).testBit i
      = (w.testBit i && !(i == b)) := by
  rw [usizeRotl_not_one hb]
  by_cases hiW : i < W
  · rw [Nat.testBit_and, testBit_usizeNot hiW, Nat.testBit_two_pow]
    by_cases hib : i = b
    · subst hib
      simp
    · have h1 : ¬(b = i) := fun h => hib h.symm
      simp [hib, h1]
  · have hwi : w.testBit i = false := by
      refine Nat.testBit_lt_two_pow (lt_of_lt_of_le hw ?_)
      exact Nat.pow_le_pow_right (by norm_num) (by omega)
    rw [Nat.testBit_and, hwi]
    simp

/-- Splitting off the least set bit of a nonzero word: the bit list of the
word is its trailing-zero count followed by the bit list of the word with
that bit cleared. -/
theorem bitsOfWord_eq_cons {W w : Nat} (hw0 : w ≠ 0) (hw : w < 2 ^ W) :
    bitsOfWord W w =
      trailingZeros W w ::
        bitsOfWord W
          (w &&& usizeRotl W (usizeNot W 1) (trailingZeros W w)) := by
  obtain ⟨hbit, hbW, hmin⟩ := trailingZeros_spec hw0 hw
  set b := trailingZeros W w with hbdef
  have hsplitW : W = b + (1 + (W - b - 1)) := by omega
  have hrange : List.range W
      = List.range b ++ (List.range (1 + (W - b - 1))).map (b + ·) := by
    conv_lhs => rw [hsplitW]
    exact List.range_add b (1 + (W - b - 1))
  have hrange2 : (List.range (1 + (W - b - 1))).map (b + ·)
      = b :: (List.range (W - b - 1)).map (fun j => b + (1 + j)) := by
    have hcomm : 1 + (W - b - 1) = (W - b - 1) + 1 := Nat.add_comm _ _
    rw [hcomm, List.range_succ_eq_map]
    simp only [List.map_cons, Nat.add_zero, List.map_map]
    congr 1
    apply List.map_congr_left
    intro j hj
    simp only [Function.comp, Nat.succ_eq_add_one]
    omega
  rw [bitsOfWord, bitsOfWord, hrange, hrange2]
  rw [List.filter_append, List.filter_append]
  have hlow : ∀ p2 : Nat → Bool, (∀ i, i < b → p2 i = false) →
      (List.range b).filter p2 = [] := by
    intro p2 hp2
    rw [List.filter_eq_nil_iff]
    intro a ha
    rw [hp2 a (List.mem_range.mp ha)]
    simp
  have hmask := fun i => testBit_maskOff (W := W) (w := w) hw hbW i
  rw [hlow _ hmin, hlow _ (fun i hi => by
    rw [hmask i, hmin i hi]
    simp)]
  have hcons : List.filter (fun i => w.testBit i) (b :: (List.range (W - b - 1)).map (fun j => b + (1 + j)))
      = b :: List.filter (fun i => w.testBit i)
          ((List.range (W - b - 1)).map (fun j => b + (1 + j))) := by
    rw [List.filter_cons, if_pos (by simpa using hbit)]
  have hcons2 : List.filter
        (fun i => (w &&& usizeRotl W (usizeNot W 1) b).testBit i)
        (b :: (List.range (W - b - 1)).map (fun j => b + (1 + j)))
      = List.filter (fun i => (w &&& usizeRotl W (usizeNot W 1) b).testBit i)
          ((List.range (W - b - 1)).map (fun j => b + (1 + j))) := by
    rw [List.filter_cons, if_neg (by rw [hmask b]; simp)]
  rw [hcons, hcons2]
  simp only [List.nil_append]
  congr 1
  apply List.filter_congr
  intro a ha
  obtain ⟨j, hj, rfl⟩ := List.mem_map.mp ha
  rw [hmask (b + (1 + j))]
  have hne2 : ¬(b + (1 + j) = b) := by omega
  simp [hne2]

/-- Popcount is the length of the bit list. -/
theorem popCount_eq_length (W w : Nat) :
    popCount W w = (bitsOfWord W w).length := by
  rw [popCount, bitsOfWord, List.countP_eq_length_filter]

/-- The zero word has no bits. -/
theorem bitsOfWord_zero (W : Nat) : bitsOfWord W 0 = [] := by
  simp [bitsOfWord, Nat.zero_testBit]

/-- A nonzero `W`-bit word has at least one bit. -/
theorem popCount_pos {W w : Nat} (hw0 : w ≠ 0) (hw : w < 2 ^ W) :
    0 < popCount W w := by
  obtain ⟨i, hiW, hbit⟩ := exists_testBit_of_ne_zero hw0 hw
  rw [popCount_eq_length]
  have : i ∈ bitsOfWord W w := by
    rw [bitsOfWord, List.mem_filter]
    exact ⟨List.mem_range.mpr hiW, hbit⟩
  exact List.length_pos.mpr (List.ne_nil_of_mem this)

/-- The rotated mask fits in `W` bits. -/
theorem usizeRotl_lt {W : Nat} (x n : Nat) :
    usizeRotl W x n < 2 ^ W := by
  rw [usizeRotl]
  exact Nat.mod_lt _ (Nat.pos_pow_of_pos W (by norm_num))

/-- Characterization of the word scan: either no nonzero word remains — and
the scanned words carry no bits — or it returns the first nonzero word,
whose bits prefix the remaining global bit positions. -/
theorem nonZeroNext_spec {W : Nat} :
    ∀ (ws : List Nat) (c : Nat), (∀ v ∈ ws, v < 2 ^ W) →
      (nonZeroNext ws c = (none, [], c + ws.length) ∧ wordsBits W ws c = []
        ∧ sumPop W ws = 0)
      ∨ (∃ v rest c2, nonZeroNext ws c = (some v, rest, c2)
          ∧ v ≠ 0 ∧ v < 2 ^ W ∧ (∀ u ∈ rest, u < 2 ^ W)
          ∧ c + 1 ≤ c2
          ∧ wordsBits W ws c
              = (bitsOfWord W v).map (fun b => (c2 - 1) * W + b)
                ++ wordsBits W rest c2
          ∧ sumPop W ws = popCount W v + sumPop W rest) := by
  intro ws
  induction ws with
  | nil =>
    intro c h
    left
    refine ⟨by simp [nonZeroNext], by rw [wordsBits], by simp [sumPop]⟩
  | cons w ws ih =>
    intro c h
    by_cases hw : w ≠ 0
    · right
      refine ⟨w, ws, c + 1, by simp [nonZeroNext, hw], hw, h w (by simp),
        fun u hu => h u (by simp [hu]), by omega, ?_, ?_⟩
      · rw [wordsBits]
        simp
      · rw [sumPop, List.map_cons, List.sum_cons, sumPop]
    · push_neg at hw
      subst hw
      have hstep : nonZeroNext (0 :: ws) c = nonZeroNext ws (c + 1) := by
        simp [nonZeroNext]
      have hwb : wordsBits W (0 :: ws) c = wordsBits W ws (c + 1) := by
        rw [wordsBits, bitsOfWord_zero]
        simp
      have hsp : sumPop W (0 :: ws) = sumPop W ws := by
        rw [sumPop, List.map_cons, List.sum_cons, popCount_eq_length,
          bitsOfWord_zero]
        simp [sumPop]
      rcases ih (c + 1) (fun u hu => h u (by simp [hu])) with
        ⟨h1, h2, h3⟩ | ⟨v, rest, c2, h1, h2, h3, h4, h5, h6, h7⟩
      · left
        refine ⟨?_, by rw [hwb, h2], by rw [hsp, h3]⟩
        rw [hstep, h1]
        simp
        omega
      · right
        exact ⟨v, rest, c2, by rw [hstep, h1], h2, h3, h4, by omega,
          by rw [hwb, h6], by rw [hsp, h7]⟩

/-- A machine whose current word is exhausted yields nothing. -/
theorem collect_current_none (T : SyscallTable) (W : Nat) :
    ∀ (fuel : Nat) (st : SysnoSetIter), st.current = none →
      SysnoSetIter.collect T W fuel st = [] := by
  intro fuel st hc
  cases fuel with
  | zero => rw [SysnoSetIter.collect]
  | succ f =>
    rw [SysnoSetIter.collect, SysnoSetIter.step, hc]

/-- Main adequacy lemma: with enough fuel, the iterator machine emits
exactly the expected global bit positions, offset by `first()`. -/
theorem collect_eq_expected (T : SyscallTable) (W : Nat) (hW : 0 < W) :
    ∀ (fuel : Nat) (st : SysnoSetIter), SysnoSetIter.inv W st →
      SysnoSetIter.numItems W st ≤ fuel →
      SysnoSetIter.collect T W fuel st
        = (SysnoSetIter.expected W st).map (fun g => g + Sysno.first T) := by
  intro fuel
  induction fuel with
  | zero =>
    intro st hinv hn
    cases hc : st.current with
    | none =>
      rw [collect_current_none T W 0 st hc, SysnoSetIter.expected, hc]
      rfl
    | some w =>
      obtain ⟨hw0, hwW⟩ := hinv.2 w hc
      exfalso
      have hpos := popCount_pos hw0 hwW
      simp only [SysnoSetIter.numItems, hc] at hn
      omega
  | succ f ih =>
    intro st hinv hn
    cases hc : st.current with
    | none =>
      rw [collect_current_none T W (f + 1) st hc, SysnoSetIter.expected, hc]
      rfl
    | some w =>
      obtain ⟨hw0, hwW⟩ := hinv.2 w hc
      obtain ⟨hbit, hbW, hmin⟩ := trailingZeros_spec hw0 hwW
      have hcons := bitsOfWord_eq_cons hw0 hwW
      have hnum : SysnoSetIter.numItems W st
          = popCount W w + sumPop W st.rest := by
        simp only [SysnoSetIter.numItems, hc]
      rw [hnum] at hn
      have hpc : popCount W w
          = popCount W (w &&& usizeRotl W (usizeNot W 1) (trailingZeros W w))
            + 1 := by
        rw [popCount_eq_length, popCount_eq_length, hcons]
        simp
      have hw2W : w &&& usizeRotl W (usizeNot W 1) (trailingZeros W w)
          < 2 ^ W :=
        Nat.and_lt_two_pow w (usizeRotl_lt _ _)
      rw [SysnoSetIter.collect]
      rw [SysnoSetIter.step, hc]
      simp only []
      by_cases h2 : w &&& usizeRotl W (usizeNot W 1) (trailingZeros W w) ≠ 0
      · rw [if_pos h2]
        have hih := ih (SysnoSetIter.mk st.rest st.count
            (some (w &&& usizeRotl W (usizeNot W 1) (trailingZeros W w))))
          ⟨hinv.1, fun u hu => by
            rw [Option.some.injEq] at hu
            exact ⟨hu ▸ h2, hu ▸ hw2W⟩⟩
          (by
            simp only [SysnoSetIter.numItems]
            omega)
        rw [hih]
        simp only [SysnoSetIter.expected, hc]
        rw [hcons]
        simp
      · push_neg at h2
        rcases nonZeroNext_spec (W := W) st.rest st.count hinv.1 with
          ⟨g1, g2, g3⟩ | ⟨v, rest2, c2, g1, g2, g3, g4, g5, g6, g7⟩
        · rw [if_neg (by simpa using h2), g1]
          have hih := ih ⟨[], st.count + st.rest.length, none⟩
            ⟨by simp, fun u hu => by cases hu⟩
            (by simp [SysnoSetIter.numItems, sumPop])
          rw [hih]
          simp only [SysnoSetIter.expected, hc]
          rw [hcons, h2, bitsOfWord_zero, g2]
          simp
        · rw [if_neg (by simpa using h2), g1]
          have hih := ih ⟨rest2, c2, some v⟩
            ⟨g4, fun u hu => by
              rw [Option.some.injEq] at hu
              exact ⟨hu ▸ g2, hu ▸ g3⟩⟩
            (by
              simp only [SysnoSetIter.numItems]
              omega)
          rw [hih]
          simp only [SysnoSetIter.expected, hc]
          rw [hcons, h2, bitsOfWord_zero, g6]
          simp

/-! From the machine to the word list, and from the word list to the table. -/
/-- Folding popcounts equals the total popcount. -/
theorem foldl_popCount (W : Nat) :
    ∀ (l : List Nat) (a : Nat),
      l.foldl (fun acc x => acc + popCount W x) a = a + sumPop W l := by
  intro l
  induction l with
  | nil => intro a; simp [sumPop]
  | cons w ws ih =>
    intro a
    rw [List.foldl_cons, ih]
    simp only [sumPop, List.map_cons, List.sum_cons]
    omega

/-- The set's count is the total popcount of its words. -/
theorem countSet_eq_sumPop (W : Nat) (s : SysnoSet) :
    SysnoSet.countSet W s = sumPop W s.data := by
  rw [SysnoSet.countSet, foldl_popCount, Nat.zero_add]

/-- The iterator yields precisely the global bit positions of the backing
words, offset by `first()`. -/
theorem iterList_eq_wordsBits (T : SyscallTable) (W : Nat) (hW : 0 < W)
    (s : SysnoSet) (hws : ∀ v ∈ s.data, v < 2 ^ W) :
    SysnoSet.iterList T W s
      = (wordsBits W s.data 0).map (fun g => g + Sysno.first T) := by
  rw [SysnoSet.iterList, countSet_eq_sumPop]
  rcases nonZeroNext_spec (W := W) s.data 0 hws with
    ⟨h1, h2, h3⟩ | ⟨v, rest, c2, h1, h2, h3, h4, h5, h6, h7⟩
  · simp only [SysnoSetIter.new, h1]
    rw [collect_current_none T W _ _ rfl, h2]
    rfl
  · simp only [SysnoSetIter.new, h1]
    rw [collect_eq_expected T W hW _ ⟨rest, c2, some v⟩
      ⟨h4, fun u hu => by
        rw [Option.some.injEq] at hu
        exact ⟨hu ▸ h2, hu ▸ h3⟩⟩
      (by simp only [SysnoSetIter.numItems]; omega)]
    simp only [SysnoSetIter.expected]
    rw [h6]

/-- Membership in the bit list of a single word. -/
theorem mem_bitsOfWord {W w b : Nat} :
    b ∈ bitsOfWord W w ↔ b < W ∧ w.testBit b = true := by
  rw [bitsOfWord, List.mem_filter, List.mem_range]

/-- Membership in the global bit positions of a word list. -/
theorem mem_wordsBits {W : Nat} :
    ∀ (ws : List Nat) (k g : Nat),
      g ∈ wordsBits W ws k ↔
        ∃ j b, j < ws.length ∧ b < W ∧ (ws.getD j 0).testBit b = true ∧
          g = (k + j) * W + b := by
  intro ws
  induction ws with
  | nil =>
    intro k g
    rw [wordsBits]
    simp
  | cons w ws ih =>
    intro k g
    rw [wordsBits, List.mem_append, List.mem_map]
    constructor
    · rintro (⟨b, hb, rfl⟩ | hrec)
      · rw [mem_bitsOfWord] at hb
        refine ⟨0, b, by simp, hb.1, by simpa using hb.2, by simp⟩
      · obtain ⟨j, b, hj, hbW, hbit, rfl⟩ := (ih (k + 1) _).mp hrec
        refine ⟨j + 1, b, by simpa using hj, hbW, by simpa using hbit, ?_⟩
        rw [show k + (j + 1) = k + 1 + j by omega]
    · rintro ⟨j, b, hj, hbW, hbit, rfl⟩
      cases j with
      | zero =>
        left
        refine ⟨b, mem_bitsOfWord.mpr ⟨hbW, by simpa using hbit⟩, by simp⟩
      | succ j2 =>
        right
        refine (ih (k + 1) _).mpr ⟨j2, b, by simpa using hj, hbW,
          by simpa using hbit, ?_⟩
        rw [show k + (j2 + 1) = k + 1 + j2 by omega]

/-- The global bit positions are strictly increasing and bounded by the
covered word range. -/
theorem wordsBits_sorted_bounded {W : Nat} (hW : 0 < W) :
    ∀ (ws : List Nat) (k : Nat),
      List.Pairwise (· < ·) (wordsBits W ws k) ∧
      ∀ g ∈ wordsBits W ws k, k * W ≤ g ∧ g < (k + ws.length) * W := by
  intro ws
  induction ws with
  | nil =>
    intro k
    rw [wordsBits]
    simp
  | cons w ws ih =>
    intro k
    have hmul : (k + 1) * W = k * W + W := by ring
    have hfirstpart : ∀ a ∈ (bitsOfWord W w).map (fun b => k * W + b),
        k * W ≤ a ∧ a < k * W + W := by
      intro a ha
      obtain ⟨b, hb, rfl⟩ := List.mem_map.mp ha
      have := (mem_bitsOfWord.mp hb).1
      omega
    constructor
    · rw [wordsBits, List.pairwise_append]
      refine ⟨?_, (ih (k + 1)).1, ?_⟩
      · rw [List.pairwise_map]
        have hp : List.Pairwise (· < ·) (bitsOfWord W w) :=
          List.Pairwise.sublist (List.filter_sublist _)
            (List.pairwise_lt_range W)
        exact hp.imp (fun hab => by omega)
      · intro a ha b hb
        have h1 := hfirstpart a ha
        have h2 := ((ih (k + 1)).2 b hb).1
        omega
    · intro g hg
      have hlen : (k + (ws.length + 1)) * W = (k + 1 + ws.length) * W := by
        ring
      rw [wordsBits, List.mem_append] at hg
      rcases hg with hg | hg
      · have h1 := hfirstpart g hg
        have h2 : (k + 1) * W ≤ (k + 1 + ws.length) * W :=
          Nat.mul_le_mul_right W (by omega)
        simp only [List.length_cons]
        omega
      · have h1 := (ih (k + 1)).2 g hg
        have h2 : k * W ≤ (k + 1) * W := Nat.mul_le_mul_right W (by omega)
        simp only [List.length_cons]
        omega

/-- Two strictly increasing lists with the same members are equal. -/
theorem pairwise_lt_eq_of_mem_iff :
    ∀ {l1 l2 : List Nat}, List.Pairwise (· < ·) l1 →
      List.Pairwise (· < ·) l2 → (∀ x, x ∈ l1 ↔ x ∈ l2) → l1 = l2 := by
  intro l1
  induction l1 with
  | nil =>
    intro l2 h1 h2 hm
    cases l2 with
    | nil => rfl
    | cons b t => exact absurd ((hm b).mpr (by simp)) (by simp)
  | cons a t ih =>
    intro l2 h1 h2 hm
    cases l2 with
    | nil => exact absurd ((hm a).mp (by simp)) (by simp)
    | cons b t2 =>
      have hab : a = b := by
        have ha2 : a ∈ b :: t2 := (hm a).mp (by simp)
        have hb1 : b ∈ a :: t := (hm b).mpr (by simp)
        rcases List.mem_cons.mp ha2 with h | h
        · exact h
        · rcases List.mem_cons.mp hb1 with h' | h'
          · exact h'.symm
          · have hc1 := (List.pairwise_cons.mp h1).1 b h'
            have hc2 := (List.pairwise_cons.mp h2).1 a h
            omega
      subst hab
      have htails : ∀ x, x ∈ t ↔ x ∈ t2 := by
        intro x
        constructor
        · intro hx
          have hax : a < x := (List.pairwise_cons.mp h1).1 x hx
          have hx2 : x ∈ a :: t2 := (hm x).mp (by simp [hx])
          rcases List.mem_cons.mp hx2 with h | h
          · exact absurd hax (by omega)
          · exact h
        · intro hx
          have hax : a < x := (List.pairwise_cons.mp h2).1 x hx
          have hx1 : x ∈ a :: t := (hm x).mpr (by simp [hx])
          rcases List.mem_cons.mp hx1 with h | h
          · exact absurd hax (by omega)
          · exact h
      rw [ih (List.pairwise_cons.mp h1).2 (List.pairwise_cons.mp h2).2 htails]

/-- Division and remainder of a packed position. -/
theorem packed_div_mod {W j b : Nat} (hW : 0 < W) (hb : b < W) :
    (j * W + b) / W = j ∧ (j * W + b) % W = b := by
  constructor
  · rw [Nat.mul_comm, Nat.mul_add_div hW, Nat.div_eq_of_lt hb, Nat.add_zero]
  · rw [Nat.mul_comm, Nat.mul_add_mod, Nat.mod_eq_of_lt hb]

/-- On an invariant-satisfying set, the iterator yields exactly the valid
syscalls the set contains, in ascending order of id. -/
theorem iterList_eq_filter (T : SyscallTable) (W : Nat) (hW : 0 < W)
    (hwf : T.WF) (s : SysnoSet) (hinv : SysnoSet.inv T W s) :
    SysnoSet.iterList T W s
      = T.ids.filter (fun x => SysnoSet.contains T W s x) := by
  obtain ⟨hlen, hws, hbits⟩ := hinv
  rw [iterList_eq_wordsBits T W hW s hws]
  apply pairwise_lt_eq_of_mem_iff
  · rw [List.pairwise_map]
    exact ((wordsBits_sorted_bounded hW s.data 0).1).imp (fun hab => by omega)
  · exact List.Pairwise.sublist (List.filter_sublist _) hwf.2.1
  · intro x
    rw [List.mem_filter, List.mem_map]
    constructor
    · rintro ⟨g, hg, rfl⟩
      obtain ⟨j, b, hj, hbW, hbit, hge⟩ := (mem_wordsBits s.data 0 _).mp hg
      rw [Nat.zero_add] at hge
      subst hge
      have hdm := packed_div_mod (j := j) (b := b) hW hbW
      have hbit2 : ((s.data.getD ((j * W + b) / W) 0).testBit
          ((j * W + b) % W)) = true := by
        rw [hdm.1, hdm.2]
        exact hbit
      have hvalid := hbits (j * W + b) hbit2
      have hmem := Sysno.isValid_iff_mem.mp hvalid
      constructor
      · have hcm : j * W + b + Sysno.first T
            = Sysno.first T + (j * W + b) := by omega
        rw [hcm]
        exact hmem
      · rw [contains_eq_testBit]
        have hsub : j * W + b + Sysno.first T - Sysno.first T
            = j * W + b := by omega
        rw [hsub, hdm.1, hdm.2]
        exact hbit
    · rintro ⟨hmem, hcont⟩
      rw [contains_eq_testBit] at hcont
      have hfle := SyscallTable.first_le_mem hwf hmem
      have hidx : (x - Sysno.first T) / W < s.data.length := by
        rw [hlen]
        exact idx_lt_words hW hwf hmem
      refine ⟨x - Sysno.first T, ?_, by omega⟩
      rw [mem_wordsBits]
      refine ⟨(x - Sysno.first T) / W, (x - Sysno.first T) % W, hidx,
        Nat.mod_lt _ hW, hcont, ?_⟩
      have hdm := Nat.div_add_mod (x - Sysno.first T) W
      have hcomm : (0 + (x - Sysno.first T) / W) * W
          = W * ((x - Sysno.first T) / W) := by ring
      omega

/-! Invariant preservation for the public SysnoSet constructors. -/
/-- Writing a different index leaves a word unchanged. -/
theorem getD_set_ne {l : List Nat} {i j : Nat} (h : i ≠ j) (a : Nat) :
    (l.set i a).getD j 0 = l.getD j 0 := by
  rw [List.getD_eq_getElem?_getD, List.getD_eq_getElem?_getD,
    List.getElem?_set_ne h]

/-- All words of the empty set are zero. -/
theorem getD_replicate_zero (n j : Nat) :
    (List.replicate n (0 : Nat)).getD j 0 = 0 := by
  by_cases hj : j < n
  · rw [List.getD_eq_getElem?_getD, List.getElem?_replicate_of_lt hj]
    rfl
  · rw [List.getD_eq_getElem?_getD, List.getElem?_eq_none (by simp; omega)]
    rfl

/-- All words of a cleared set are zero. -/
theorem getD_map_zero (l : List Nat) (j : Nat) :
    (l.map (fun _ => (0 : Nat))).getD j 0 = 0 := by
  by_cases hj : j < l.length
  · rw [List.getD_eq_getElem?_getD, List.getElem?_map,
      List.getElem?_eq_getElem hj]
    rfl
  · rw [List.getD_eq_getElem?_getD, List.getElem?_eq_none (by simp; omega)]
    rfl

/-- Any word read from a bounded list is bounded. -/
theorem getD_lt_two_pow {W : Nat} {l : List Nat} (h : ∀ v ∈ l, v < 2 ^ W)
    (j : Nat) : l.getD j 0 < 2 ^ W := by
  by_cases hj : j < l.length
  · rw [List.getD_eq_getElem?_getD, List.getElem?_eq_getElem hj]
    exact h _ (List.getElem_mem hj)
  · rw [List.getD_eq_getElem?_getD, List.getElem?_eq_none (by omega)]
    exact Nat.pos_pow_of_pos W (by norm_num)

/-- The empty set satisfies the invariant. -/
theorem inv_empty (T : SyscallTable) (W : Nat) :
    SysnoSet.inv T W (SysnoSet.empty T W) := by
  refine ⟨?_, ?_, ?_⟩
  · rw [SysnoSet.hasLen]
    simp [SysnoSet.empty]
  · intro v hv
    rw [List.eq_of_mem_replicate hv]
    exact Nat.pos_pow_of_pos W (by norm_num)
  · intro g hg
    rw [SysnoSet.empty] at hg
    simp only [] at hg
    rw [getD_replicate_zero, Nat.zero_testBit] at hg
    cases hg

/-- Insertion of a valid syscall preserves the invariant. -/
theorem inv_insert {T : SyscallTable} {W : Nat} (hW : 0 < W) (hwf : T.WF)
    {s : SysnoSet} (hinv : SysnoSet.inv T W s) {x : Nat}
    (hx : Sysno.isValid T x = true) :
    SysnoSet.inv T W (SysnoSet.insert T W s x).2 := by
  obtain ⟨hlen, hws, hbits⟩ := hinv
  have hmem := Sysno.isValid_iff_mem.mp hx
  have hidx : (x - Sysno.first T) / W < s.data.length := by
    rw [hlen]
    exact idx_lt_words hW hwf hmem
  refine ⟨?_, ?_, ?_⟩
  · rw [SysnoSet.hasLen] at hlen ⊢
    simp only [SysnoSet.insert, SysnoSet.get_idx_mask, List.length_set]
    exact hlen
  · intro v hv
    simp only [SysnoSet.insert, SysnoSet.get_idx_mask] at hv
    rcases List.mem_or_eq_of_mem_set hv with h | h
    · exact hws v h
    · subst h
      refine Nat.or_lt_two_pow (getD_lt_two_pow hws _) ?_
      rw [Nat.shiftLeft_eq, one_mul]
      exact Nat.pow_lt_pow_right (by norm_num) (Nat.mod_lt _ hW)
  · intro g hg
    simp only [SysnoSet.insert, SysnoSet.get_idx_mask] at hg
    by_cases hj : g / W = (x - Sysno.first T) / W
    · rw [hj, getD_set_self hidx, Nat.testBit_or] at hg
      rcases Bool.or_eq_true_iff.mp hg with h | h
      · apply hbits
        rw [hj]
        exact h
      · rw [Nat.shiftLeft_eq, one_mul, Nat.testBit_two_pow] at h
        have hgb : (x - Sysno.first T) % W = g % W := of_decide_eq_true h
        have h1 := Nat.div_add_mod g W
        have h2 := Nat.div_add_mod (x - Sysno.first T) W
        have h3 : W * (g / W) = W * ((x - Sysno.first T) / W) := by rw [hj]
        have hgeq : g = x - Sysno.first T := by omega
        have hfle := SyscallTable.first_le_mem hwf hmem
        have hxg : Sysno.first T + g = x := by omega
        rw [hxg]
        exact hx
    · rw [getD_set_ne (fun h => hj h.symm) _] at hg
      exact hbits g hg

/-- Removal preserves the invariant. -/
theorem inv_remove {T : SyscallTable} {W : Nat} (hW : 0 < W) (hwf : T.WF)
    {s : SysnoSet} (hinv : SysnoSet.inv T W s) {x : Nat}
    (hx : Sysno.isValid T x = true) :
    SysnoSet.inv T W (SysnoSet.remove T W s x).2 := by
  obtain ⟨hlen, hws, hbits⟩ := hinv
  refine ⟨?_, ?_, ?_⟩
  · rw [SysnoSet.hasLen] at hlen ⊢
    simp only [SysnoSet.remove, SysnoSet.get_idx_mask, List.length_set]
    exact hlen
  · intro v hv
    simp only [SysnoSet.remove, SysnoSet.get_idx_mask] at hv
    rcases List.mem_or_eq_of_mem_set hv with h | h
    · exact hws v h
    · subst h
      exact lt_of_le_of_lt Nat.and_le_left (getD_lt_two_pow hws _)
  · intro g hg
    have hmem := Sysno.isValid_iff_mem.mp hx
    have hidx : (x - Sysno.first T) / W < s.data.length := by
      rw [hlen]
      exact idx_lt_words hW hwf hmem
    simp only [SysnoSet.remove, SysnoSet.get_idx_mask] at hg
    by_cases hj : g / W = (x - Sysno.first T) / W
    · rw [hj, getD_set_self hidx, Nat.testBit_and] at hg
      apply hbits
      rw [hj]
      exact (Bool.and_eq_true_iff.mp hg).1
    · rw [getD_set_ne (fun h => hj h.symm) _] at hg
      exact hbits g hg

/-- Clearing preserves the invariant (all bits end up clear). -/
theorem inv_clear {T : SyscallTable} {W : Nat} {s : SysnoSet}
    (hinv : SysnoSet.inv T W s) :
    SysnoSet.inv T W (SysnoSet.clearSet s) := by
  obtain ⟨hlen, hws, hbits⟩ := hinv
  refine ⟨?_, ?_, ?_⟩
  · rw [SysnoSet.hasLen] at hlen ⊢
    simpa [SysnoSet.clearSet] using hlen
  · intro v hv
    simp only [SysnoSet.clearSet, List.mem_map] at hv
    obtain ⟨u, hu, rfl⟩ := hv
    exact Nat.pos_pow_of_pos W (by norm_num)
  · intro g hg
    rw [SysnoSet.clearSet] at hg
    simp only [] at hg
    rw [getD_map_zero, Nat.zero_testBit] at hg
    cases hg

/-- Word-wise combination preserves the invariant, provided the combiner
keeps words bounded and introduces no new bits. -/
theorem inv_zipWith {T : SyscallTable} {W : Nat} {a b : SysnoSet}
    (ha : SysnoSet.inv T W a) (hb : SysnoSet.inv T W b)
    (f : Nat → Nat → Nat)
    (hf1 : ∀ x y, x < 2 ^ W → y < 2 ^ W → f x y < 2 ^ W)
    (hf2 : ∀ x y i, (f x y).testBit i = true →
      x.testBit i = true ∨ y.testBit i = true) :
    SysnoSet.inv T W ⟨List.zipWith f a.data b.data⟩ := by
  obtain ⟨hla, hwa, hba⟩ := ha
  obtain ⟨hlb, hwb, hbb⟩ := hb
  rw [SysnoSet.hasLen] at hla hlb
  have hlen : a.data.length = b.data.length := by rw [hla, hlb]
  refine ⟨?_, ?_, ?_⟩
  · rw [SysnoSet.hasLen]
    simp only [List.length_zipWith]
    omega
  · intro v hv
    obtain ⟨i, hi, hvi⟩ := List.mem_iff_getElem.mp hv
    rw [List.getElem_zipWith] at hvi
    subst hvi
    have hia : i < a.data.length := by
      simp only [List.length_zipWith] at hi
      omega
    have hib : i < b.data.length := by
      simp only [List.length_zipWith] at hi
      omega
    exact hf1 _ _ (hwa _ (List.getElem_mem hia)) (hwb _ (List.getElem_mem hib))
  · intro g hg
    by_cases hj : g / W < a.data.length
    · rw [getD_zipWith hj hlen] at hg
      rcases hf2 _ _ _ hg with h | h
      · exact hba g h
      · exact hbb g h
    · rw [List.getD_eq_getElem?_getD, List.getElem?_eq_none (by
        simp only [List.length_zipWith]
        omega)] at hg
      rw [Option.getD_none, Nat.zero_testBit] at hg
      cases hg

/-- Union preserves the invariant. -/
theorem inv_union {T : SyscallTable} {W : Nat} {a b : SysnoSet}
    (ha : SysnoSet.inv T W a) (hb : SysnoSet.inv T W b) :
    SysnoSet.inv T W (SysnoSet.union a b) :=
  inv_zipWith ha hb _ (fun x y hx hy => Nat.or_lt_two_pow hx hy)
    (fun x y i h => by
      rw [Nat.testBit_or] at h
      exact Bool.or_eq_true_iff.mp h)

/-- Intersection preserves the invariant. -/
theorem inv_intersection {T : SyscallTable} {W : Nat} {a b : SysnoSet}
    (ha : SysnoSet.inv T W a) (hb : SysnoSet.inv T W b) :
    SysnoSet.inv T W (SysnoSet.intersection a b) :=
  inv_zipWith ha hb _ (fun x y hx hy => lt_of_le_of_lt Nat.and_le_left hx)
    (fun x y i h => by
      rw [Nat.testBit_and] at h
      exact Or.inl (Bool.and_eq_true_iff.mp h).1)

/-- Difference preserves the invariant. -/
theorem inv_difference {T : SyscallTable} {W : Nat} {a b : SysnoSet}
    (ha : SysnoSet.inv T W a) (hb : SysnoSet.inv T W b) :
    SysnoSet.inv T W (SysnoSet.difference W a b) :=
  inv_zipWith ha hb _ (fun x y hx hy => lt_of_le_of_lt Nat.and_le_left hx)
    (fun x y i h => by
      rw [Nat.testBit_and] at h
      exact Or.inl (Bool.and_eq_true_iff.mp h).1)

/-- Symmetric difference preserves the invariant. -/
theorem inv_symmetric_difference {T : SyscallTable} {W : Nat}
    {a b : SysnoSet} (ha : SysnoSet.inv T W a) (hb : SysnoSet.inv T W b) :
    SysnoSet.inv T W (SysnoSet.symmetric_difference a b) :=
  inv_zipWith ha hb _ (fun x y hx hy => Nat.xor_lt_two_pow hx hy)
    (fun x y i h => by
      rw [Nat.testBit_xor] at h
      cases hx : x.testBit i
      · cases hy : y.testBit i
        · rw [hx, hy] at h
          cases h
        · exact Or.inr rfl
      · exact Or.inl rfl)

/-- Folding insertions of valid syscalls preserves the invariant. -/
theorem inv_foldl_insert {T : SyscallTable} {W : Nat} (hW : 0 < W)
    (hwf : T.WF) :
    ∀ (l : List Nat) (s : SysnoSet), (∀ x ∈ l, Sysno.isValid T x = true) →
      SysnoSet.inv T W s →
      SysnoSet.inv T W
        (l.foldl (fun s x => (SysnoSet.insert T W s x).2) s) := by
  intro l
  induction l with
  | nil => intro s h hs; simpa using hs
  | cons a l ih =>
    intro s h hs
    rw [List.foldl_cons]
    exact ih _ (fun x hx => h x (by simp [hx]))
      (inv_insert hW hwf hs (h a (by simp)))

/-- Bulk construction from valid syscalls satisfies the invariant. -/
theorem inv_newSet {T : SyscallTable} {W : Nat} (hW : 0 < W) (hwf : T.WF)
    (l : List Nat) (h : ∀ x ∈ l, Sysno.isValid T x = true) :
    SysnoSet.inv T W (SysnoSet.newSet T W l) := by
  have heq : SysnoSet.newSet T W l
      = l.foldl (fun s x => (SysnoSet.insert T W s x).2)
          (SysnoSet.empty T W) := rfl
  rw [heq]
  exact inv_foldl_insert hW hwf l _ h (inv_empty T W)

/-- The all-syscalls set satisfies the invariant. -/
theorem inv_allSet {T : SyscallTable} {W : Nat} (hW : 0 < W) (hwf : T.WF) :
    SysnoSet.inv T W (SysnoSet.allSet T W) :=
  inv_newSet hW hwf T.ids
    (fun x hx => Sysno.isValid_iff_mem.mpr hx)

/-- Every reachable set satisfies the invariant. -/
theorem reachable_inv {T : SyscallTable} {W : Nat} (hW : 0 < W)
    (hwf : T.WF) {s : SysnoSet} (hr : SysnoSet.Reachable T W s) :
    SysnoSet.inv T W s := by
  induction hr with
  | empty => exact inv_empty T W
  | all => exact inv_allSet hW hwf
  | newSet l h => exact inv_newSet hW hwf l h
  | insert s x hs hx ih => exact inv_insert hW hwf ih hx
  | remove s x hs hx ih => exact inv_remove hW hwf ih hx
  | clear s hs ih => exact inv_clear ih
  | union a b ha hb iha ihb => exact inv_union iha ihb
  | inter a b ha hb iha ihb => exact inv_intersection iha ihb
  | diff a b ha hb iha ihb => exact inv_difference iha ihb
  | sdiff a b ha hb iha ihb => exact inv_symmetric_difference iha ihb
  | extend s l hs h ih => exact inv_foldl_insert hW hwf l s h ih

/-! Shared facts about insert, remove and indices, reused by the map. -/
/-- Reading back a written slot (any element type). -/
theorem getD_set_self' {α : Type} {l : List α} {i : Nat} {a d : α}
    (h : i < l.length) : (l.set i a).getD i d = a := by
  rw [List.getD_eq_getElem?_getD, List.getElem?_set_self (by simpa using h)]
  rfl

/-- Writing a different slot leaves a value unchanged (any element type). -/
theorem getD_set_ne' {α : Type} {l : List α} {i j : Nat} (h : i ≠ j)
    (a d : α) : (l.set i a).getD j d = l.getD j d := by
  rw [List.getD_eq_getElem?_getD, List.getD_eq_getElem?_getD,
    List.getElem?_set_ne h]

/-- The slot index of a valid syscall is within the table. -/
theorem get_idx_lt_table_size {T : SyscallTable} (hwf : T.WF) {x : Nat}
    (hx : x ∈ T.ids) : get_idx T x < Sysno.table_size T := by
  have h1 := SyscallTable.first_le_mem hwf hx
  have h2 := SyscallTable.mem_le_last hwf hx
  rw [get_idx, Sysno.table_size]
  omega

/-- Summary of one insertion: the returned flag, the bit afterwards, and
the preserved length. -/
theorem set_insert_spec {T : SyscallTable} {W : Nat} (hW : 0 < W)
    (hwf : T.WF) {s : SysnoSet} (hs : SysnoSet.hasLen T W s) {x : Nat}
    (hx : Sysno.isValid T x = true) :
    (SysnoSet.insert T W s x).1 = !SysnoSet.contains T W s x
    ∧ SysnoSet.contains T W (SysnoSet.insert T W s x).2 x = true
    ∧ SysnoSet.hasLen T W (SysnoSet.insert T W s x).2 := by
  have hmem : x ∈ T.ids := Sysno.isValid_iff_mem.mp hx
  have hidx : (x - Sysno.first T) / W < s.data.length := by
    rw [hs]
    exact idx_lt_words hW hwf hmem
  refine ⟨?_, ?_, ?_⟩
  · rw [SysnoSet.insert, SysnoSet.get_idx_mask, contains_eq_testBit]
    simp only [Nat.shiftLeft_eq, one_mul, ← decide_and_two_pow]
    simp
  · rw [contains_eq_testBit, SysnoSet.insert, SysnoSet.get_idx_mask]
    simp only [Nat.shiftLeft_eq, one_mul]
    rw [getD_set_self hidx]
    simp [Nat.testBit_two_pow]
  · rw [SysnoSet.hasLen] at hs ⊢
    simp only [SysnoSet.insert, SysnoSet.get_idx_mask, List.length_set]
    exact hs

/-- Summary of one removal: the returned flag, the cleared bit, and the
preserved length. -/
theorem set_remove_spec {T : SyscallTable} {W : Nat} (hW : 0 < W)
    (hwf : T.WF) {s : SysnoSet} (hs : SysnoSet.hasLen T W s) {x : Nat}
    (hx : Sysno.isValid T x = true) :
    (SysnoSet.remove T W s x).1 = SysnoSet.contains T W s x
    ∧ SysnoSet.contains T W (SysnoSet.remove T W s x).2 x = false
    ∧ SysnoSet.hasLen T W (SysnoSet.remove T W s x).2 := by
  have hmem : x ∈ T.ids := Sysno.isValid_iff_mem.mp hx
  have hidx : (x - Sysno.first T) / W < s.data.length := by
    rw [hs]
    exact idx_lt_words hW hwf hmem
  have hbW : (x - Sysno.first T) % W < W := Nat.mod_lt _ hW
  refine ⟨?_, ?_, ?_⟩
  · rw [SysnoSet.remove, SysnoSet.get_idx_mask, contains_eq_testBit]
    simp only [Nat.shiftLeft_eq, one_mul, ← decide_and_two_pow]
  · rw [contains_eq_testBit, SysnoSet.remove, SysnoSet.get_idx_mask]
    simp only [Nat.shiftLeft_eq, one_mul]
    rw [getD_set_self hidx]
    simp [testBit_usizeNot hbW, Nat.testBit_two_pow]
  · rw [SysnoSet.hasLen] at hs ⊢
    simp only [SysnoSet.remove, SysnoSet.get_idx_mask, List.length_set]
    exact hs

/-- Distinct valid syscalls map to distinct global bit positions; writing
one leaves the other's membership unchanged (insertion case). -/
theorem contains_insert_other {T : SyscallTable} {W : Nat} (hW : 0 < W)
    (hwf : T.WF) {s : SysnoSet} (hs : SysnoSet.hasLen T W s) {x y : Nat}
    (hx : Sysno.isValid T x = true) (hy : Sysno.isValid T y = true)
    (hxy : x ≠ y) :
    SysnoSet.contains T W (SysnoSet.insert T W s x).2 y
      = SysnoSet.contains T W s y := by
  have hmx : x ∈ T.ids := Sysno.isValid_iff_mem.mp hx
  have hmy : y ∈ T.ids := Sysno.isValid_iff_mem.mp hy
  have hfx := SyscallTable.first_le_mem hwf hmx
  have hfy := SyscallTable.first_le_mem hwf hmy
  have hg : x - Sysno.first T ≠ y - Sysno.first T := by omega
  have hidx : (x - Sysno.first T) / W < s.data.length := by
    rw [hs]
    exact idx_lt_words hW hwf hmx
  rw [contains_eq_testBit, contains_eq_testBit]
  simp only [SysnoSet.insert, SysnoSet.get_idx_mask, Nat.shiftLeft_eq,
    one_mul]
  by_cases hj : (x - Sysno.first T) / W = (y - Sysno.first T) / W
  · rw [← hj, getD_set_self hidx, Nat.testBit_or, Nat.testBit_two_pow]
    have hb : (x - Sysno.first T) % W ≠ (y - Sysno.first T) % W := by
      intro he
      apply hg
      have h1 := Nat.div_add_mod (x - Sysno.first T) W
      have h2 := Nat.div_add_mod (y - Sysno.first T) W
      have h3 : W * ((x - Sysno.first T) / W)
          = W * ((y - Sysno.first T) / W) := by rw [hj]
      omega
    simp [hb]
  · rw [getD_set_ne hj _]

/-- Distinct valid syscalls: removal of one leaves the other's membership
unchanged. -/
theorem contains_remove_other {T : SyscallTable} {W : Nat} (hW : 0 < W)
    (hwf : T.WF) {s : SysnoSet} (hs : SysnoSet.hasLen T W s) {x y : Nat}
    (hx : Sysno.isValid T x = true) (hy : Sysno.isValid T y = true)
    (hxy : x ≠ y) :
    SysnoSet.contains T W (SysnoSet.remove T W s x).2 y
      = SysnoSet.contains T W s y := by
  have hmx : x ∈ T.ids := Sysno.isValid_iff_mem.mp hx
  have hmy : y ∈ T.ids := Sysno.isValid_iff_mem.mp hy
  have hfx := SyscallTable.first_le_mem hwf hmx
  have hfy := SyscallTable.first_le_mem hwf hmy
  have hg : x - Sysno.first T ≠ y - Sysno.first T := by omega
  have hidx : (x - Sysno.first T) / W < s.data.length := by
    rw [hs]
    exact idx_lt_words hW hwf hmx
  have hbyW : (y - Sysno.first T) % W < W := Nat.mod_lt _ hW
  rw [contains_eq_testBit, contains_eq_testBit]
  simp only [SysnoSet.remove, SysnoSet.get_idx_mask, Nat.shiftLeft_eq,
    one_mul]
  by_cases hj : (x - Sysno.first T) / W = (y - Sysno.first T) / W
  · rw [← hj, getD_set_self hidx, Nat.testBit_and,
      testBit_usizeNot hbyW, Nat.testBit_two_pow]
    have hb : (x - Sysno.first T) % W ≠ (y - Sysno.first T) % W := by
      intro he
      apply hg
      have h1 := Nat.div_add_mod (x - Sysno.first T) W
      have h2 := Nat.div_add_mod (y - Sysno.first T) W
      have h3 : W * ((x - Sysno.first T) / W)
          = W * ((y - Sysno.first T) / W) := by rw [hj]
      omega
    simp [hb]
  · rw [getD_set_ne hj _]

/-- The empty set contains nothing. -/
theorem contains_empty_false (T : SyscallTable) (W : Nat) (x : Nat) :
    SysnoSet.contains T W (SysnoSet.empty T W) x = false := by
  rw [contains_eq_testBit, SysnoSet.empty]
  simp only []
  rw [getD_replicate_zero, Nat.zero_testBit]

/-- A cleared set contains nothing. -/
theorem contains_clearSet_false (T : SyscallTable) (W : Nat) (s : SysnoSet)
    (x : Nat) :
    SysnoSet.contains T W (SysnoSet.clearSet s) x = false := by
  rw [contains_eq_testBit, SysnoSet.clearSet]
  simp only []
  rw [getD_map_zero, Nat.zero_testBit]

/-- Every reachable map satisfies the map invariant. -/
theorem map_reachable_inv {T : SyscallTable} {W : Nat} (hW : 0 < W)
    (hwf : T.WF) {α : Type} {m : SysnoMap α}
    (hm : SysnoMap.Reachable T W m) : SysnoMap.inv T W m := by
  induction hm with
  | newMap =>
    refine ⟨inv_empty T W, by simp [SysnoMap.newMap], ?_⟩
    intro x hx hc
    rw [SysnoMap.newMap] at hc
    simp only [] at hc
    rw [contains_empty_false] at hc
    cases hc
  | insert m x v hm hx ih =>
    obtain ⟨hsinv, hlen, hlive⟩ := ih
    have hmx : x ∈ T.ids := Sysno.isValid_iff_mem.mp hx
    have hsl : SysnoSet.hasLen T W m.is_set := hsinv.1
    have hins := set_insert_spec hW hwf hsl hx
    have hset2 : (SysnoMap.insert T W m x v).2
        = ⟨(SysnoSet.insert T W m.is_set x).2,
            m.data.set (get_idx T x) (some v)⟩ := by
      rw [SysnoMap.insert]
      by_cases hb : (SysnoSet.insert T W m.is_set x).1 = true
      · simp only [hb]
        rfl
      · simp only [Bool.not_eq_true] at hb
        simp only [hb]
        rfl
    rw [hset2]
    refine ⟨inv_insert hW hwf hsinv hx, by simpa using hlen, ?_⟩
    intro y hy hc
    simp only []
    by_cases hxy : x = y
    · subst hxy
      rw [getD_set_self' (by rw [hlen]; exact get_idx_lt_table_size hwf hmx)]
      rfl
    · simp only [] at hc
      rw [contains_insert_other hW hwf hsl hx
        (Sysno.isValid_iff_mem.mpr hy) hxy] at hc
      have hgne : get_idx T x ≠ get_idx T y := by
        have h1 := SyscallTable.first_le_mem hwf hmx
        have h2 := SyscallTable.first_le_mem hwf hy
        rw [get_idx, get_idx]
        omega
      rw [getD_set_ne' hgne _ _]
      exact hlive y hy hc
  | remove m x hm hx ih =>
    obtain ⟨hsinv, hlen, hlive⟩ := ih
    have hmx : x ∈ T.ids := Sysno.isValid_iff_mem.mp hx
    have hsl : SysnoSet.hasLen T W m.is_set := hsinv.1
    have hrs := set_remove_spec hW hwf hsl hx
    have hinv2 := inv_remove hW hwf hsinv hx
    by_cases hb : (SysnoSet.remove T W m.is_set x).1 = true
    · have hset2 : (SysnoMap.remove T W m x).2
          = ⟨(SysnoSet.remove T W m.is_set x).2,
              m.data.set (get_idx T x) none⟩ := by
        rw [SysnoMap.remove, if_pos hb]
      rw [hset2]
      refine ⟨hinv2, by simpa using hlen, ?_⟩
      intro y hy hc
      have hc2 : SysnoSet.contains T W (SysnoSet.remove T W m.is_set x).2 y
          = true := hc
      by_cases hxy : x = y
      · subst hxy
        rw [hrs.2.1] at hc2
        cases hc2
      · rw [contains_remove_other hW hwf hsl hx
          (Sysno.isValid_iff_mem.mpr hy) hxy] at hc2
        have hgne : get_idx T x ≠ get_idx T y := by
          have h1 := SyscallTable.first_le_mem hwf hmx
          have h2 := SyscallTable.first_le_mem hwf hy
          rw [get_idx, get_idx]
          omega
        show ((m.data.set (get_idx T x) none).getD (get_idx T y)
          none).isSome = true
        rw [getD_set_ne' hgne _ _]
        exact hlive y hy hc2
    · have hbf : (SysnoSet.remove T W m.is_set x).1 = false := by
        simpa using hb
      have hset2 : (SysnoMap.remove T W m x).2
          = ⟨(SysnoSet.remove T W m.is_set x).2, m.data⟩ := by
        rw [SysnoMap.remove, if_neg (by rw [hbf]; exact Bool.false_ne_true)]
      rw [hset2]
      refine ⟨hinv2, hlen, ?_⟩
      intro y hy hc
      have hc2 : SysnoSet.contains T W (SysnoSet.remove T W m.is_set x).2 y
          = true := hc
      by_cases hxy : x = y
      · subst hxy
        rw [hrs.2.1] at hc2
        cases hc2
      · rw [contains_remove_other hW hwf hsl hx
          (Sysno.isValid_iff_mem.mpr hy) hxy] at hc2
        exact hlive y hy hc2
  | clear m hm ih =>
    obtain ⟨hsinv, hlen, hlive⟩ := ih
    rw [SysnoMap.clear]
    refine ⟨inv_clear hsinv, hlen, ?_⟩
    intro y hy hc
    simp only [] at hc
    rw [contains_clearSet_false] at hc
    cases hc

/-- C8: on any reachable set, iteration yields exactly the syscalls the set
contains, each exactly once, in strictly ascending id order; and SysnoMap
iteration, which drives its slot reads from the same iterator, visits keys
in that same order. -/
theorem c8_set_iter_order (T : SyscallTable) (W : Nat) (hW : 0 < W)
    (hwf : T.WF) (s : SysnoSet) (hr : SysnoSet.Reachable T W s) :
    SysnoSet.iterList T W s
        = T.ids.filter (fun x => SysnoSet.contains T W s x)
    ∧ (∀ x, x ∈ SysnoSet.iterList T W s ↔
        Sysno.isValid T x = true ∧ SysnoSet.contains T W s x = true)
    ∧ List.Pairwise (· < ·) (SysnoSet.iterList T W s)
    ∧ List.Nodup (SysnoSet.iterList T W s)
    ∧ (∀ {α : Type} (m : SysnoMap α), m.is_set = s →
        (SysnoMap.iterList T W m).map Prod.fst
          = SysnoSet.iterList T W s) := by
  have hinv := reachable_inv hW hwf hr
  have heq := iterList_eq_filter T W hW hwf s hinv
  have hpair : List.Pairwise (· < ·) (SysnoSet.iterList T W s) := by
    rw [heq]
    exact List.Pairwise.sublist (List.filter_sublist _) hwf.2.1
  refine ⟨heq, ?_, hpair, ?_, ?_⟩
  · intro x
    simp [heq, List.mem_filter, Sysno.isValid_iff_mem]
  · exact List.Pairwise.imp (fun h => Nat.ne_of_lt h) hpair
  · intro α m hms
    rw [SysnoMap.iterList, hms, List.map_map]
    have hcomp : (Prod.fst ∘ fun sysno =>
        (sysno, m.data.getD (get_idx T sysno) none)) = fun sysno => sysno :=
      rfl
    rw [hcomp, List.map_id']

/-- C8 witness: the set {0, 1, 3} over T0 (8-bit words) iterates as
[0, 1, 3], which is exactly the filtered table. -/
theorem c8_set_iter_order_witness :
    SysnoSet.iterList T0 8
        (SysnoSet.insert T0 8 (SysnoSet.newSet T0 8 [3, 0]) 1).2
      = T0.ids.filter (fun x => SysnoSet.contains T0 8
          (SysnoSet.insert T0 8 (SysnoSet.newSet T0 8 [3, 0]) 1).2 x)
    ∧ SysnoSet.iterList T0 8
        (SysnoSet.insert T0 8 (SysnoSet.newSet T0 8 [3, 0]) 1).2
      = [0, 1, 3] :=
  ⟨(c8_set_iter_order T0 8 (by decide) (by decide) _
      (SysnoSet.Reachable.insert _ 1
        (SysnoSet.Reachable.newSet [3, 0] (by decide)) (by decide))).1,
    by decide⟩

/-- C10: on every reachable set, each set bit position `g` corresponds to
the valid syscall id `first() + g` (never a hole, never past `last()`), so
the `Sysno::from` conversion inside the iterator never takes its panicking
invalid-id branch. -/
theorem c10_reachable_bits_valid (T : SyscallTable) (W : Nat) (hW : 0 < W)
    (hwf : T.WF) (s : SysnoSet) (hr : SysnoSet.Reachable T W s) :
    (∀ g, (s.data.getD (g / W) 0).testBit (g % W) = true →
        Sysno.isValid T (Sysno.first T + g) = true)
    ∧ (∀ y ∈ SysnoSet.iterList T W s,
        (Sysno.fromU32 T y).isSome = true) := by
  have hinv := reachable_inv hW hwf hr
  refine ⟨hinv.2.2, ?_⟩
  intro y hy
  rw [iterList_eq_filter T W hW hwf s hinv, List.mem_filter] at hy
  rw [Sysno.fromU32, Sysno.new,
    if_pos (Sysno.isValid_iff_mem.mpr hy.1)]
  rfl

/-- C10 witness: the reachable set {1} over T0 has every bit valid, and
every iterator yield converts successfully. -/
theorem c10_reachable_bits_valid_witness :
    (∀ g, (((SysnoSet.insert T0 8 (SysnoSet.empty T0 8) 1).2).data.getD
        (g / 8) 0).testBit (g % 8) = true →
        Sysno.isValid T0 (Sysno.first T0 + g) = true)
    ∧ (∀ y ∈ SysnoSet.iterList T0 8
        (SysnoSet.insert T0 8 (SysnoSet.empty T0 8) 1).2,
        (Sysno.fromU32 T0 y).isSome = true) :=
  c10_reachable_bits_valid T0 8 (by decide) (by decide) _
    (SysnoSet.Reachable.insert _ 1 SysnoSet.Reachable.empty (by decide))

/-- C3: the slot state machine of SysnoMap. On every reachable map,
`insert` returns the previously stored value (i.e. `get` before the call:
`Some` on a live slot, `None` on a dead one) and leaves the key live with
the new value; `remove` returns the stored value likewise and leaves the
key dead; `get` is `Some` exactly when the key is live in the shared
bitset. -/
theorem c3_map_state_machine (T : SyscallTable) (W : Nat) (hW : 0 < W)
    (hwf : T.WF) {α : Type} (m : SysnoMap α)
    (hm : SysnoMap.Reachable T W m) (x : Nat)
    (hx : Sysno.isValid T x = true) (v : α) :
    (SysnoMap.insert T W m x v).1 = SysnoMap.get T W m x
    ∧ SysnoMap.get T W (SysnoMap.insert T W m x v).2 x = some v
    ∧ SysnoMap.contains_key T W (SysnoMap.insert T W m x v).2 x = true
    ∧ (SysnoMap.remove T W m x).1 = SysnoMap.get T W m x
    ∧ SysnoMap.get T W (SysnoMap.remove T W m x).2 x = none
    ∧ SysnoMap.contains_key T W (SysnoMap.remove T W m x).2 x = false
    ∧ (SysnoMap.get T W m x).isSome
        = SysnoSet.contains T W m.is_set x := by
  obtain ⟨hsinv, hlen, hlive⟩ := map_reachable_inv hW hwf hm
  have hmx := Sysno.isValid_iff_mem.mp hx
  have hsl : SysnoSet.hasLen T W m.is_set := hsinv.1
  have hins := set_insert_spec hW hwf hsl hx
  have hrem := set_remove_spec hW hwf hsl hx
  have hidxlt : get_idx T x < m.data.length := by
    rw [hlen]
    exact get_idx_lt_table_size hwf hmx
  have hset2 : (SysnoMap.insert T W m x v).2
      = ⟨(SysnoSet.insert T W m.is_set x).2,
          m.data.set (get_idx T x) (some v)⟩ := by
    rw [SysnoMap.insert]
    by_cases hb : (SysnoSet.insert T W m.is_set x).1 = true
    · rw [if_pos hb]
    · rw [if_neg hb]
  have hiss : (SysnoMap.remove T W m x).2.is_set
      = (SysnoSet.remove T W m.is_set x).2 := by
    rw [SysnoMap.remove]
    by_cases hb : (SysnoSet.remove T W m.is_set x).1 = true
    · rw [if_pos hb]
    · rw [if_neg hb]
  refine ⟨?_, ?_, ?_, ?_, ?_, ?_, ?_⟩
  · by_cases hc : SysnoSet.contains T W m.is_set x = true
    · have h1 : ¬(SysnoSet.insert T W m.is_set x).1 = true := by
        rw [hins.1, hc]
        simp
      rw [SysnoMap.insert, if_neg h1, SysnoMap.get, if_pos hc]
    · have h1 : (SysnoSet.insert T W m.is_set x).1 = true := by
        rw [hins.1]
        simp only [Bool.not_eq_true] at hc
        rw [hc]
        rfl
      rw [SysnoMap.insert, if_pos h1, SysnoMap.get, if_neg hc]
  · rw [hset2]
    show (if SysnoSet.contains T W (SysnoSet.insert T W m.is_set x).2 x
          = true
        then (m.data.set (get_idx T x) (some v)).getD (get_idx T x) none
        else none) = some v
    rw [if_pos hins.2.1, getD_set_self' hidxlt]
  · rw [hset2]
    show SysnoSet.contains T W (SysnoSet.insert T W m.is_set x).2 x = true
    exact hins.2.1
  · by_cases hc : SysnoSet.contains T W m.is_set x = true
    · have h1 : (SysnoSet.remove T W m.is_set x).1 = true := by
        rw [hrem.1, hc]
      rw [SysnoMap.remove, if_pos h1, SysnoMap.get, if_pos hc]
    · have h1 : ¬(SysnoSet.remove T W m.is_set x).1 = true := by
        rw [hrem.1]
        exact hc
      rw [SysnoMap.remove, if_neg h1, SysnoMap.get, if_neg hc]
  · rw [SysnoMap.get, hiss, hrem.2.1]
    rw [if_neg Bool.false_ne_true]
  · rw [SysnoMap.contains_key, hiss, hrem.2.1]
  · by_cases hc : SysnoSet.contains T W m.is_set x = true
    · rw [SysnoMap.get, if_pos hc, hc]
      exact hlive x hmx hc
    · simp only [Bool.not_eq_true] at hc
      rw [SysnoMap.get, if_neg (by rw [hc]; exact Bool.false_ne_true), hc]
      rfl

/-- C3 witness: the concrete reachable map {1 ↦ 42} over T0; re-inserting
at key 1 returns the old value and stores the new one. -/
theorem c3_map_state_machine_witness :
    ((SysnoMap.insert T0 8 m0c 1 7).1 = SysnoMap.get T0 8 m0c 1
    ∧ SysnoMap.get T0 8 (SysnoMap.insert T0 8 m0c 1 7).2 1 = some 7
    ∧ SysnoMap.contains_key T0 8 (SysnoMap.insert T0 8 m0c 1 7).2 1 = true
    ∧ (SysnoMap.remove T0 8 m0c 1).1 = SysnoMap.get T0 8 m0c 1
    ∧ SysnoMap.get T0 8 (SysnoMap.remove T0 8 m0c 1).2 1 = none
    ∧ SysnoMap.contains_key T0 8 (SysnoMap.remove T0 8 m0c 1).2 1 = false
    ∧ (SysnoMap.get T0 8 m0c 1).isSome
        = SysnoSet.contains T0 8 m0c.is_set 1)
    ∧ SysnoMap.get T0 8 m0c 1 = some 42 :=
  ⟨c3_map_state_machine T0 8 (by decide) (by decide) m0c
      (SysnoMap.Reachable.insert _ 1 42 SysnoMap.Reachable.newMap
        (by decide)) 1 (by decide) 7,
    by decide⟩

/-- C4: on every reachable map, `clear` (and `Drop`, whose body is exactly
`clear`) deinitializes each currently-live slot exactly once — the
deinitialized-slot sequence is precisely the live keys' slots, without
duplicates — and afterwards the map is empty: every key is dead. -/
theorem c4_map_clear_deinit_once (T : SyscallTable) (W : Nat) (hW : 0 < W)
    (hwf : T.WF) {α : Type} (m : SysnoMap α)
    (hm : SysnoMap.Reachable T W m) :
    (SysnoMap.clear T W m).2
        = (T.ids.filter (fun x => SysnoSet.contains T W m.is_set x)).map
            (fun x => get_idx T x)
    ∧ List.Nodup (SysnoMap.clear T W m).2
    ∧ (∀ x ∈ T.ids, (get_idx T x ∈ (SysnoMap.clear T W m).2
        ↔ SysnoSet.contains T W m.is_set x = true))
    ∧ (∀ x, SysnoMap.contains_key T W (SysnoMap.clear T W m).1 x = false)
    ∧ SysnoMap.dropMap T W m = SysnoMap.clear T W m := by
  obtain ⟨hsinv, hlen, hlive⟩ := map_reachable_inv hW hwf hm
  have hfilter := iterList_eq_filter T W hW hwf m.is_set hsinv
  have hlist : (SysnoMap.clear T W m).2
      = (T.ids.filter (fun x => SysnoSet.contains T W m.is_set x)).map
          (fun x => get_idx T x) := by
    show (SysnoSet.iterList T W m.is_set).map (fun sysno => get_idx T sysno)
      = _
    rw [hfilter]
  have hinj : ∀ y ∈ T.ids.filter
      (fun x => SysnoSet.contains T W m.is_set x), ∀ z ∈ T.ids.filter
      (fun x => SysnoSet.contains T W m.is_set x),
      get_idx T y = get_idx T z → y = z := by
    intro y hy z hz he
    have hy2 := (List.mem_filter.mp hy).1
    have hz2 := (List.mem_filter.mp hz).1
    have h1 := SyscallTable.first_le_mem hwf hy2
    have h2 := SyscallTable.first_le_mem hwf hz2
    rw [get_idx, get_idx] at he
    omega
  have hnodup : (T.ids.filter
      (fun x => SysnoSet.contains T W m.is_set x)).Nodup :=
    List.Pairwise.imp (fun h => Nat.ne_of_lt h)
      (List.Pairwise.sublist (List.filter_sublist _) hwf.2.1)
  refine ⟨hlist, ?_, ?_, ?_, rfl⟩
  · rw [hlist]
    exact List.Nodup.map_on hinj hnodup
  · intro x hxmem
    rw [hlist]
    constructor
    · intro hin
      obtain ⟨y, hy, hyx⟩ := List.mem_map.mp hin
      have hyeq : y = x := by
        have hy2 := (List.mem_filter.mp hy).1
        have h1 := SyscallTable.first_le_mem hwf hy2
        have h2 := SyscallTable.first_le_mem hwf hxmem
        rw [get_idx, get_idx] at hyx
        omega
      subst hyeq
      exact (List.mem_filter.mp hy).2
    · intro hc
      exact List.mem_map.mpr ⟨x, List.mem_filter.mpr ⟨hxmem, hc⟩, rfl⟩
  · intro x
    show SysnoSet.contains T W (SysnoSet.clearSet m.is_set) x = false
    exact contains_clearSet_false T W m.is_set x

/-- C4 witness: clearing the concrete map {1 ↦ 42} deinitializes exactly
slot 1, once, and empties the map; the dropped-slot list evaluates to [1]. -/
theorem c4_map_clear_deinit_once_witness :
    ((SysnoMap.clear T0 8 m0c).2
        = (T0.ids.filter
            (fun x => SysnoSet.contains T0 8 m0c.is_set x)).map
            (fun x => get_idx T0 x)
    ∧ List.Nodup (SysnoMap.clear T0 8 m0c).2
    ∧ (∀ x ∈ T0.ids, (get_idx T0 x ∈ (SysnoMap.clear T0 8 m0c).2
        ↔ SysnoSet.contains T0 8 m0c.is_set x = true))
    ∧ (∀ x, SysnoMap.contains_key T0 8 (SysnoMap.clear T0 8 m0c).1 x
        = false)
    ∧ SysnoMap.dropMap T0 8 m0c = SysnoMap.clear T0 8 m0c)
    ∧ (SysnoMap.clear T0 8 m0c).2 = [1] :=
  ⟨c4_map_clear_deinit_once T0 8 (by decide) (by decide) m0c
      (SysnoMap.Reachable.insert _ 1 42 SysnoMap.Reachable.newMap
        (by decide)),
    by decide⟩
